import Mathlib

/-!
# MS-GARCH regime-switching engine (`Package/src/MSgarch.h`)

A shallow embedding of the `MSgarch` class: the flat parameter layout, parameter
loading, prior aggregation, the Hamilton filter and batch evaluation.

Conventions of the embedding.

* `NumericVector` is `List α`; `NumericMatrix` is a record of its two dimensions and
  an entry function.  All definitions are generic in the number type `α`
  (a linear ordered field), so they run on `ℚ`; the theorems are stated on `ℝ`,
  which is what "exact real arithmetic" means here.
* `exp`, `log`, `sqrt` and R's `dnorm(., ., ., log = 1)` are library functions, not
  code of the package: the definitions take them as explicit arguments and the
  theorems pass `Real.exp`, `Real.log`, ... .
* The single-regime models (`Base`, declared in `SingleRegime.h`) are external
  collaborators: a model is a record of its methods over an abstract state `σ`
  and an abstract volatility type `V`.  The `void` methods transform the state,
  the value-returning ones read it.
* The engine object is the record `MSgarch`; a member function that mutates the
  object returns the new record.
* Sizes, counts and loop indices (`K`, `NbParams`, ...) are natural numbers.
* The random source of R is an explicit stream `rng : Nat → α` of uniform draws:
  `runif(1, 0, 1)[0]` takes `rng 0` and leaves the shifted stream; a model's sampler
  `spec_rndgen` maps a stream to its draw and the stream it leaves.
* In the simulation and density routines (`sampleState`, `f_sim`, `f_rnd`, `f_pdf`) the
  vector reads and writes whose index is not bounded by the length in the code itself
  are checked: the routine returns `none` when one of them is out of range.  The two
  assignments `S[0] = ...` and `y[0] = ...` that `f_sim` makes before its loop go through
  the unchecked `operator[]` of Rcpp and are the plain writes `List.set`: on a vector of
  length `0` the cell written is not part of the vector, which stays empty.
-/

set_option autoImplicit false

namespace MSGARCH

/-! ## Data model -/

/-- The pair returned by the prior routines: feasibility flag `r1`, log-density `r2`. -/
structure prior (α : Type) where
  r1 : Bool
  r2 : α

/-- An Rcpp `NumericMatrix`: `nrow`, `ncol` and the entry `M(i, j)`. -/
structure NumericMatrix (α : Type) where
  nrow : Nat
  ncol : Nat
  val : Nat → Nat → α

/-- The matrix `NumericMatrix M(n, m)`: Rcpp fills it with zeros. -/
def NumericMatrix.zero {α : Type} [Zero α] (n m : Nat) : NumericMatrix α :=
  ⟨n, m, fun _ _ => 0⟩

/-- The row view `M(i, _)` read as a vector. -/
def NumericMatrix.row {α : Type} (M : NumericMatrix α) (i : Nat) : List α :=
  (List.range M.ncol).map (fun j => M.val i j)

/-- The column view `M(_, j)` read as a vector. -/
def NumericMatrix.col {α : Type} (M : NumericMatrix α) (j : Nat) : List α :=
  (List.range M.nrow).map (fun i => M.val i j)

/-- The assignment `M(k, _) = v`. -/
def NumericMatrix.setRow {α : Type} [Zero α] (M : NumericMatrix α) (k : Nat) (v : List α) :
    NumericMatrix α :=
  { M with val := fun i j => if i = k then v.getD j 0 else M.val i j }

/-- The assignment `M(_, t) = v`. -/
def NumericMatrix.setCol {α : Type} [Zero α] (M : NumericMatrix α) (t : Nat) (v : List α) :
    NumericMatrix α :=
  { M with val := fun i j => if j = t then v.getD i 0 else M.val i j }

/-- The methods of a single-regime model (`class Base` of `SingleRegime.h`, which is
not part of this file): `σ` is the model object's internal state, `V` its
`volatility` record, of which the engine reads only the variance `h`.  The name,
defaults, bounds and parameter counts are constants of the model; the `void` methods
transform the state and the value-returning ones read it. -/
structure Base (σ V α : Type) where
  spec_name : String
  spec_theta0 : List α
  spec_Sigma0 : List α
  spec_label : List String
  spec_lower : List α
  spec_upper : List α
  spec_ineq_lb : α
  spec_ineq_ub : α
  spec_nb_coeffs : Nat
  spec_nb_coeffs_model : Nat
  spec_loadparam : σ → List α → σ
  spec_prep_ineq_vol : σ → σ
  spec_prep_kernel : σ → σ
  spec_ineq_func : σ → α
  spec_calc_prior : σ → List α → prior α
  spec_set_vol : σ → α → V
  spec_increment_vol : σ → V → α → V
  spec_calc_kernel : σ → V → α → α
  spec_calc_pdf : σ → α → α
  spec_calc_cdf : σ → α → α
  spec_rndgen : σ → (Nat → α) → α × (Nat → α)
  vol_h : V → α

/-- One entry of `many specs`: the object a `Base*` points to, i.e. its methods and
its current state. -/
structure Spec (σ V α : Type) where
  impl : Base σ V α
  state : σ

/-- The data members of `class MSgarch`. -/
structure MSgarch (σ V α : Type) where
  specs : List (Spec σ V α)
  K : Nat
  P : NumericMatrix α
  PLast : List α
  P0 : List α
  P_mean : α
  P_sd : α
  LND_MIN : α
  name : List String
  theta0 : List α
  Sigma0 : List α
  label : List String
  lower : List α
  upper : List α
  ineq_lb : List α
  ineq_ub : List α
  NbParams : List Nat
  NbParamsModel : List Nat

/-! ## Auxiliary functions -/

/-- `MyConcatenate(x, y)`: pushes the entries of `y` onto `x` one by one. -/
def MyConcatenate {β : Type} (x y : List β) : List β :=
  (List.range y.length).foldl (fun acc i => acc ++ y[i]?.toList) x

/-- `MyCumsum(x, n)`: the sum of the first `n` entries of `x`. -/
def MyCumsum (x : List Nat) (n : Nat) : Nat :=
  (List.range n).foldl (fun out i => out + x.getD i 0) 0

/-- The iterator-range constructor `NumericVector(theta.begin() + first, theta.begin() + last)`. -/
def vecRange {α : Type} (theta : List α) (first last : Nat) : List α :=
  (theta.take last).drop first

/-- Rcpp sugar `v * w` on two vectors (entrywise product). -/
def vecMul {α : Type} [Mul α] (v w : List α) : List α :=
  List.zipWith (fun a b => a * b) v w

/-- `matrixProd(v, M)`: the Rcpp implementation of `v %*% M`. -/
def matrixProd {α : Type} [Mul α] [Add α] [Zero α] (v : List α) (M : NumericMatrix α) : List α :=
  (List.range v.length).map (fun i => (vecMul v (M.col i)).sum)

/-! ## Parameter layout and loading -/

section Layout

variable {σ V α : Type}

/-- `MSgarch::extract_theta_it(theta, k)`. -/
def extract_theta_it (M : MSgarch σ V α) (theta : List α) (k : Nat) : List α :=
  let start := MyCumsum M.NbParams k
  vecRange theta start (start + M.NbParams.getD k 0)

/-- `MSgarch::extract_P_it(theta, k)`. -/
def extract_P_it [Ring α] (M : MSgarch σ V α) (theta : List α) (k : Nat) : List α :=
  let Tot_NbParams := M.NbParams.sum
  let P_it := vecRange theta (Tot_NbParams + k * (M.K - 1)) (Tot_NbParams + (k + 1) * (M.K - 1))
  P_it ++ [1 - P_it.sum]

/-- The loop of `MSgarch::loadparam` over the models, `k` being the running index:
returns the models with their parameters loaded and the filled matrix. -/
def loadparam_loop [Ring α] (M : MSgarch σ V α) (theta : List α) :
    List (Spec σ V α) → Nat → NumericMatrix α → List (Spec σ V α) × NumericMatrix α
  | [], _, P_mat => ([], P_mat)
  | it :: rest, k, P_mat =>
    let theta_it := extract_theta_it M theta k
    let P_it := extract_P_it M theta k
    let it1 : Spec σ V α := { it with state := it.impl.spec_loadparam it.state theta_it }
    let r := loadparam_loop M theta rest (k + 1) (P_mat.setRow k P_it)
    (it1 :: r.1, r.2)

/-- `MSgarch::loadparam(theta)`. -/
def loadparam [Ring α] (M : MSgarch σ V α) (theta : List α) : MSgarch σ V α :=
  let r := loadparam_loop M theta M.specs 0 (NumericMatrix.zero M.K M.K)
  { M with specs := r.1, P := r.2 }

end Layout

/-! ## Construction -/

section Construction

variable {σ V α : Type}

/-- `DBL_MIN` of `<cfloat>`: the smallest positive normalised double, `2^(-1022)`. -/
def DBL_MIN [LinearOrderedField α] : α := 1 / 2 ^ 1022

/-- The second loop of the constructor, over the models: the per-model defaults,
bounds and parameter counts are appended in model order. -/
def MSgarch.new_loop (M : MSgarch σ V α) : List (Spec σ V α) → MSgarch σ V α
  | [] => M
  | it :: rest =>
    MSgarch.new_loop
      { M with
        name := M.name ++ [it.impl.spec_name]
        theta0 := MyConcatenate M.theta0 it.impl.spec_theta0
        Sigma0 := MyConcatenate M.Sigma0 it.impl.spec_Sigma0
        label := MyConcatenate M.label it.impl.spec_label
        lower := MyConcatenate M.lower it.impl.spec_lower
        upper := MyConcatenate M.upper it.impl.spec_upper
        ineq_lb := MyConcatenate M.ineq_lb [it.impl.spec_ineq_lb]
        ineq_ub := MyConcatenate M.ineq_ub [it.impl.spec_ineq_ub]
        NbParams := M.NbParams ++ [it.impl.spec_nb_coeffs]
        NbParamsModel := M.NbParamsModel ++ [it.impl.spec_nb_coeffs_model] }
      rest

/-- The constructor `MSgarch::MSgarch(List L)`, `L` being the list of models.
`P` is default-constructed (empty) and `P_mean = 1/K` is a division of two `int`s. -/
def MSgarch.new [LinearOrderedField α] (log : α → α) (L : List (Spec σ V α)) : MSgarch σ V α :=
  let K := L.length
  let M0 : MSgarch σ V α :=
    { specs := L, K := K, P := NumericMatrix.zero 0 0, PLast := [], P0 := [],
      P_mean := 0, P_sd := 0, LND_MIN := 0,
      name := [], theta0 := [], Sigma0 := [], label := [], lower := [], upper := [],
      ineq_lb := [], ineq_ub := [], NbParams := [], NbParamsModel := [] }
  let M1 := MSgarch.new_loop M0 L
  let M2 : MSgarch σ V α :=
    { M1 with
      P0 := List.replicate K (1 / (K : α))
      PLast := List.replicate K (1 / (K : α))
      P_mean := ((1 / K : Nat) : α)
      P_sd := 10
      LND_MIN := log DBL_MIN + 1 }
  if 1 < K then
    let NbP := K * (K - 1)
    { M2 with
      theta0 := MyConcatenate M2.theta0 (List.replicate NbP (1 / (K : α)))
      Sigma0 := MyConcatenate M2.Sigma0 (List.replicate NbP 1)
      label := MyConcatenate M2.label (List.replicate NbP "P")
      lower := MyConcatenate M2.lower (List.replicate NbP 0)
      upper := MyConcatenate M2.upper (List.replicate NbP 1)
      ineq_lb := MyConcatenate M2.ineq_lb (List.replicate K 0)
      ineq_ub := MyConcatenate M2.ineq_ub (List.replicate K 1) }
  else M2

end Construction

/-! ## Per-model dispatch -/

section Dispatch

variable {σ V α : Type}

/-- `MSgarch::prep_ineq_vol()`. -/
def prep_ineq_vol (M : MSgarch σ V α) : MSgarch σ V α :=
  { M with specs := M.specs.map (fun it => { it with state := it.impl.spec_prep_ineq_vol it.state }) }

/-- `MSgarch::prep_kernel()`. -/
def prep_kernel (M : MSgarch σ V α) : MSgarch σ V α :=
  { M with specs := M.specs.map (fun it => { it with state := it.impl.spec_prep_kernel it.state }) }

/-- `MSgarch::set_vol(y0)`: entry `k` is model `k`'s initial volatility (the vector has
one entry per model, `K` being the number of models). -/
def set_vol (M : MSgarch σ V α) (y0 : α) : List V :=
  M.specs.map (fun it => it.impl.spec_set_vol it.state y0)

/-- `MSgarch::increment_vol(vol, yim1)`: model `k` advances `vol[k]`. -/
def increment_vol (M : MSgarch σ V α) (vol : List V) (yim1 : α) : List V :=
  List.zipWith (fun it v => it.impl.spec_increment_vol it.state v yim1) M.specs vol

/-- `MSgarch::calc_kernel(vol, yi)`: entry `k` is model `k`'s log-density of `yi`. -/
def calc_kernel (M : MSgarch σ V α) (vol : List V) (yi : α) : List α :=
  List.zipWith (fun it v => it.impl.spec_calc_kernel it.state v yi) M.specs vol

end Dispatch

/-! ## Prior -/

section Prior

variable {σ V α : Type}

/-- The loop of `MSgarch::calc_prior` over the models; `k`, `r1_joint` and `r2_joint`
are the running index and the two accumulators. `dnorm x m s` stands for R's
`dnorm(x, m, s, 1)`. -/
def calc_prior_loop [LinearOrderedField α] (dnorm : α → α → α → α) (M : MSgarch σ V α)
    (theta : List α) : List (Spec σ V α) → Nat → Bool → α → Bool × α
  | [], _, r1_joint, r2_joint => (r1_joint, r2_joint)
  | it :: rest, k, r1_joint, r2_joint =>
    let theta_it := extract_theta_it M theta k
    let P_it := extract_P_it M theta k
    let pr := it.impl.spec_calc_prior it.state theta_it
    let r1 := r1_joint && pr.r1 && P_it.all (fun p => decide (0 < p) && decide (p < 1))
    let r2 := r2_joint + (pr.r2 + (P_it.map (fun p => dnorm p M.P_mean M.P_sd)).sum)
    calc_prior_loop dnorm M theta rest (k + 1) r1 r2

/-- `MSgarch::calc_prior(theta)`. -/
def calc_prior [LinearOrderedField α] (dnorm : α → α → α → α) (M : MSgarch σ V α)
    (theta : List α) : prior α :=
  let r := calc_prior_loop dnorm M theta M.specs 0 true 0
  { r1 := r.1, r2 := if r.1 then r.2 else -(10 ^ 10) }

end Prior

/-! ## Log-density matrix and Hamilton filter -/

section Filter

variable {σ V α : Type}

/-- `MSgarch::calc_lndMat(y)`: returns the `K x (nb_obs - 1)` matrix and the engine
after `prep_kernel()`. -/
def calc_lndMat [LinearOrderedField α] (M : MSgarch σ V α) (y : List α) :
    NumericMatrix α × MSgarch σ V α :=
  let nb_obs := y.length
  let lndMat0 : NumericMatrix α := NumericMatrix.zero M.K (nb_obs - 1)
  let vol0 := set_vol M (y.getD 0 0)
  let M1 := prep_kernel M
  let r := (List.range' 1 (nb_obs - 1)).foldl
    (fun (s : List V × NumericMatrix α) t =>
      let vol := increment_vol M1 s.1 (y.getD (t - 1) 0)
      (vol, s.2.setCol (t - 1) (calc_kernel M1 vol (y.getD t 0))))
    (vol0, lndMat0)
  (r.2, M1)

/-- Rcpp sugar `min(v)`. -/
def vecMin [LinearOrder α] [Zero α] : List α → α
  | [] => 0
  | x :: xs => xs.foldl min x

/-- The local variables of the Hamilton filter that live across loop iterations. -/
structure HFState (α : Type) where
  lnd : α
  delta : α
  Pspot : List α
  tmp : List α

/-- The three lines shared by the first step and the loop body of the filter:
from `Pspot` and column `t`, the shift `delta` and the unnormalised `tmp`. -/
def HF_predict [LinearOrderedField α] (exp : α → α) (M : MSgarch σ V α)
    (lndMat : NumericMatrix α) (lnd : α) (Pspot : List α) (t : Nat) : HFState α :=
  let Ppred := matrixProd Pspot M.P
  let lndCol := lndMat.col t
  let min_lnd := vecMin lndCol
  let delta := if min_lnd < M.LND_MIN then M.LND_MIN - min_lnd else 0
  let tmp := vecMul Ppred (lndCol.map (fun l => exp (l + delta)))
  { lnd := lnd, delta := delta, Pspot := Pspot, tmp := tmp }

/-- One iteration `t` of the loop of `MSgarch::HamiltonFilter`. -/
def HF_step [LinearOrderedField α] (exp log : α → α) (M : MSgarch σ V α)
    (lndMat : NumericMatrix α) (s : HFState α) (t : Nat) : HFState α :=
  let sum_tmp := s.tmp.sum
  let lnd := s.lnd + (-s.delta + log sum_tmp)
  let Pspot := s.tmp.map (fun x => x / sum_tmp)
  HF_predict exp M lndMat lnd Pspot t

/-- `MSgarch::HamiltonFilter(lndMat)`: the returned `lnd` and the engine with the new
`PLast`. -/
def HamiltonFilter [LinearOrderedField α] (exp log : α → α) (M : MSgarch σ V α)
    (lndMat : NumericMatrix α) : α × MSgarch σ V α :=
  let n_step := lndMat.ncol
  let s0 := HF_predict exp M lndMat 0 M.P0 0
  let s := (List.range' 1 (n_step - 1)).foldl (HF_step exp log M lndMat) s0
  let sum_tmp := s.tmp.sum
  let lnd := s.lnd + (-s.delta + log sum_tmp)
  (lnd, { M with PLast := matrixProd s.Pspot M.P })

/-- The loop `for (i < K) Ptmp(t, i) = Pspot(i)` of `HamiltonFilter_2`. -/
def NumericMatrix.setRowK [Zero α] (Ptmp : NumericMatrix α) (t K : Nat) (Pspot : List α) :
    NumericMatrix α :=
  { Ptmp with val := fun i j => if i = t ∧ j < K then Pspot.getD j 0 else Ptmp.val i j }

/-- One iteration `t` of the loop of `MSgarch::HamiltonFilter_2`. -/
def HF2_step [LinearOrderedField α] (exp log : α → α) (M : MSgarch σ V α)
    (lndMat : NumericMatrix α) (s : HFState α × NumericMatrix α) (t : Nat) :
    HFState α × NumericMatrix α :=
  let sum_tmp := s.1.tmp.sum
  let lnd := s.1.lnd + (-s.1.delta + log sum_tmp)
  let Pspot := s.1.tmp.map (fun x => x / sum_tmp)
  let Ptmp := s.2.setRowK t M.K Pspot
  (HF_predict exp M lndMat lnd Pspot t, Ptmp)

/-- `MSgarch::HamiltonFilter_2(lndMat)`: the returned matrix of filtered probabilities
and the engine with the new `PLast`. -/
def HamiltonFilter_2 [LinearOrderedField α] (exp log : α → α) (M : MSgarch σ V α)
    (lndMat : NumericMatrix α) : NumericMatrix α × MSgarch σ V α :=
  let n_step := lndMat.ncol
  let Ptmp0 := (NumericMatrix.zero (n_step + 1) M.K).setRowK 0 M.K M.P0
  let s0 := HF_predict exp M lndMat 0 M.P0 0
  let s := (List.range' 1 (n_step - 1)).foldl (HF2_step exp log M lndMat) (s0, Ptmp0)
  let sum_tmp := s.1.tmp.sum
  let Pspot := s.1.tmp.map (fun x => x / sum_tmp)
  let Ptmp := s.2.setRowK n_step M.K Pspot
  (Ptmp, { M with PLast := matrixProd Pspot M.P })

end Filter

/-! ## Model evaluation -/

section Eval

variable {σ V α : Type}

/-- The body of the loop of `MSgarch::eval_model` for one parameter vector `theta_j`:
the value stored in `lnd[j]` and the engine afterwards. -/
def eval_row [LinearOrderedField α] (exp log : α → α) (dnorm : α → α → α → α)
    (M : MSgarch σ V α) (theta_j : List α) (y : List α) : α × MSgarch σ V α :=
  let M1 := loadparam M theta_j
  let M2 := prep_ineq_vol M1
  let pr := calc_prior dnorm M2 theta_j
  if pr.r1 then
    let lm := calc_lndMat M2 y
    let hf := HamiltonFilter exp log lm.2 lm.1
    (pr.r2 + (0 + hf.1), hf.2)
  else
    (pr.r2 + 0, M2)

/-- The state of `MSgarch::eval_model` after the first `n` iterations of its loop:
the vector `lnd` and the engine. -/
def eval_model_loop [LinearOrderedField α] (exp log : α → α) (dnorm : α → α → α → α)
    (M : MSgarch σ V α) (all_thetas : NumericMatrix α) (y : List α) (n : Nat) :
    List α × MSgarch σ V α :=
  (List.range n).foldl
    (fun (s : List α × MSgarch σ V α) j =>
      let r := eval_row exp log dnorm s.2 (all_thetas.row j) y
      (s.1.set j r.1, r.2))
    (List.replicate all_thetas.nrow 0, M)

/-- `MSgarch::eval_model(all_thetas, y)`: the returned vector and the engine afterwards. -/
def eval_model [LinearOrderedField α] (exp log : α → α) (dnorm : α → α → α → α)
    (M : MSgarch σ V α) (all_thetas : NumericMatrix α) (y : List α) :
    List α × MSgarch σ V α :=
  eval_model_loop exp log dnorm M all_thetas y all_thetas.nrow

/-- The engine inside iteration `j` of the loop of `MSgarch::eval_model`, right after
`loadparam(theta_j); prep_ineq_vol();`. -/
def eval_model_loaded [LinearOrderedField α] (exp log : α → α) (dnorm : α → α → α → α)
    (M : MSgarch σ V α) (all_thetas : NumericMatrix α) (y : List α) (j : Nat) :
    MSgarch σ V α :=
  prep_ineq_vol (loadparam (eval_model_loop exp log dnorm M all_thetas y j).2 (all_thetas.row j))

end Eval

/-! ## Simulation -/

section Simulation

variable {σ V α : Type}

/-- The `while` loop of `sampleState`: `cumP` and `ct` are the loop variables; the read
`P[ct]` is checked. -/
def sampleState_loop [LinearOrderedField α] (P : List α) (u : α) (ct_max : Nat) (cumP : α)
    (ct : Nat) : Option Nat :=
  if _h : u > cumP ∧ ct ≤ ct_max then
    match P[ct]? with
    | none => none
    | some p => sampleState_loop P u ct_max (cumP + p) (ct + 1)
  else some (ct - 1)
termination_by ct_max + 1 - ct
decreasing_by omega

/-- The function `sampleState(P)`, the uniform draw `u` being an input; the reads of `P`
are checked. -/
def sampleState [LinearOrderedField α] (P : List α) (u : α) : Option Nat :=
  match P[0]? with
  | none => none
  | some p0 => sampleState_loop P u (P.length - 1) p0 1

/-- The assignment `v[i] = a` on a vector (`NumericVector`, `IntegerVector`), checked. -/
def vecSet {β : Type} (v : List β) (i : Nat) (a : β) : Option (List β) :=
  if i < v.length then some (v.set i a) else none

/-- The row view `M(i, _)` read as a vector, the row index being checked. -/
def NumericMatrix.row? (M : NumericMatrix α) (i : Nat) : Option (List α) :=
  if i < M.nrow then some (M.row i) else none

/-- `MSgarch::rndgen(k)`: an innovation from model `k`, drawn from the stream `rng`. -/
def rndgen (M : MSgarch σ V α) (k : Nat) (rng : Nat → α) : Option (α × (Nat → α)) :=
  match M.specs[k]? with
  | none => none
  | some it => some (it.impl.spec_rndgen it.state rng)

/-- The read `vol[k].h`: the variance of regime `k`, the index being checked. -/
def vol_h_at (M : MSgarch σ V α) (vol : List V) (k : Nat) : Option α :=
  match M.specs[k]?, vol[k]? with
  | some it, some v => some (it.impl.vol_h v)
  | _, _ => none

/-- The variables of `f_sim` that live across the iterations of its loop. -/
structure SimState (V α : Type) where
  y : List α
  S : List Nat
  vol : List V
  rng : Nat → α

/-- One iteration `t` of the loop of `MSgarch::f_sim`. -/
def f_sim_step [LinearOrderedField α] (sqrt : α → α) (M : MSgarch σ V α) (s : SimState V α)
    (t : Nat) : Option (SimState V α) := do
  let sprev ← s.S[t - 1]?
  let Prow ← M.P.row? sprev
  let st ← sampleState Prow (s.rng 0)
  let S ← vecSet s.S t st
  let zr ← rndgen M st (fun i => s.rng (i + 1))
  let yprev ← s.y[t - 1]?
  let vol := increment_vol M s.vol yprev
  let h ← vol_h_at M vol st
  let y ← vecSet s.y t (zr.1 * sqrt h)
  some { y := y, S := S, vol := vol, rng := zr.2 }

/-- `MSgarch::f_sim(n, theta, burnin)` on the stream `rng`: the pair of the returned
`value` and `state` vectors (the regime labels are kept as natural numbers).  The
assignments `S[0] = sampleState(P0)` and `y[0] = z * sqrt(vol[S[0]].h)` are unchecked
writes; the reads `S[0]` that follow the first one yield the label just written. -/
def f_sim [LinearOrderedField α] (sqrt : α → α) (M : MSgarch σ V α) (rng : Nat → α)
    (n : Nat) (theta : List α) (burnin : Nat) : Option (List α × List Nat) := do
  let ntot := n + burnin
  let y0 : List α := List.replicate ntot 0
  let S0 : List Nat := List.replicate ntot 0
  let M1 := loadparam M theta
  let s0 ← sampleState M1.P0 (rng 0)
  let S := S0.set 0 s0
  let zr ← rndgen M1 s0 (fun i => rng (i + 1))
  let M2 := prep_ineq_vol M1
  let vol := set_vol M2 zr.1
  let h ← vol_h_at M2 vol s0
  let y := y0.set 0 (zr.1 * sqrt h)
  let st ← (List.range' 1 (ntot - 1)).foldlM (f_sim_step sqrt M2)
    { y := y, S := S, vol := vol, rng := zr.2 }
  some (st.y.drop burnin, st.S.drop burnin)

/-- The loop `for (t = 1; t <= ny; t++) increment_vol(vol, y[t-1])` that `f_rnd`, `f_pdf`
and `f_cdf` run after `set_vol(y[0])`. -/
def advance_vol [Zero α] (M : MSgarch σ V α) (y : List α) (vol0 : List V) : List V :=
  (List.range' 1 y.length).foldl (fun vol t => increment_vol M vol (y.getD (t - 1) 0)) vol0

/-- The variables of `f_rnd` that live across the iterations of its loop. -/
structure RndState (α : Type) where
  draw : List α
  S : List Nat
  rng : Nat → α

/-- One iteration `i` of the loop of `MSgarch::f_rnd`; `vol` is the volatility vector
left by the loop over the observations. -/
def f_rnd_step [LinearOrderedField α] (sqrt : α → α) (M : MSgarch σ V α) (vol : List V)
    (s : RndState α) (i : Nat) : Option (RndState α) := do
  let st ← sampleState M.PLast (s.rng 0)
  let S ← vecSet s.S i st
  let zr ← rndgen M st (fun j => s.rng (j + 1))
  let h ← vol_h_at M vol st
  let draw ← vecSet s.draw i (zr.1 * sqrt h)
  some { draw := draw, S := S, rng := zr.2 }

/-- `MSgarch::f_rnd(n, theta, y)` on the stream `rng`: the pair of the returned `value`
and `state` vectors. -/
def f_rnd [LinearOrderedField α] (exp log sqrt : α → α) (M : MSgarch σ V α) (rng : Nat → α)
    (n : Nat) (theta : List α) (y : List α) : Option (List α × List Nat) := do
  let draw0 : List α := List.replicate n 0
  let S0 : List Nat := List.replicate n 0
  let M1 := loadparam M theta
  let M2 := prep_ineq_vol M1
  let y0 ← y[0]?
  let vol := advance_vol M2 y (set_vol M2 y0)
  let lm := calc_lndMat M2 y
  let hf := HamiltonFilter exp log lm.2 lm.1
  let st ← (List.range n).foldlM (f_rnd_step sqrt hf.2 vol) { draw := draw0, S := S0, rng := rng }
  some (st.draw, st.S)

/-- The loop of `MSgarch::f_pdf` over the models, `s` being the running index: the two
inner loops over the points fill `tmp` and add `tmp * PLast[s]` to `out`. -/
def f_pdf_loop [LinearOrderedField α] (sqrt : α → α) (M : MSgarch σ V α) (vol : List V)
    (x : List α) : List (Spec σ V α) → Nat → List α → List α → Option (List α × List α)
  | [], _, tmp, out => some (tmp, out)
  | it :: rest, s, _, out => do
    let v ← vol[s]?
    let sig := sqrt (it.impl.vol_h v)
    let pl ← M.PLast[s]?
    let tmp1 := x.map (fun xi => it.impl.spec_calc_pdf it.state (xi / sig) / sig)
    let out1 := List.zipWith (fun o t => o + t * pl) out tmp1
    f_pdf_loop sqrt M vol x rest (s + 1) tmp1 out1

/-- `MSgarch::f_pdf(x, theta, y, is_log)`. -/
def f_pdf [LinearOrderedField α] (exp log sqrt : α → α) (M : MSgarch σ V α) (x : List α)
    (theta : List α) (y : List α) (is_log : Bool) : Option (List α) := do
  let nx := x.length
  let tmp0 : List α := List.replicate nx 0
  let out0 : List α := List.replicate nx 0
  let M1 := loadparam M theta
  let M2 := prep_ineq_vol M1
  let y0 ← y[0]?
  let vol := advance_vol M2 y (set_vol M2 y0)
  let lm := calc_lndMat M2 y
  let hf := HamiltonFilter exp log lm.2 lm.1
  let r ← f_pdf_loop sqrt hf.2 vol x hf.2.specs 0 tmp0 out0
  if is_log then some (r.1.map log) else some r.2

/-- The sub-matrix `M(Range(r0, r1), Range(c0, c1))`, both ranges inclusive. -/
def NumericMatrix.sub (M : NumericMatrix α) (r0 r1 c0 c1 : Nat) : NumericMatrix α :=
  { nrow := r1 + 1 - r0, ncol := c1 + 1 - c0, val := fun i j => M.val (r0 + i) (c0 + j) }

/-- `MSgarch::ineq_func(theta)`: the returned vector and the engine afterwards. -/
def ineq_func [LinearOrderedField α] (M : MSgarch σ V α) (theta : List α) :
    List α × MSgarch σ V α :=
  let M1 := loadparam M theta
  let M2 := prep_ineq_vol M1
  let out := M2.specs.foldl (fun out it => out ++ [it.impl.spec_ineq_func it.state]) []
  if 1 < M2.K then
    let Psub := M2.P.sub 0 (M2.K - 1) 0 (M2.K - 2)
    ((List.range M2.K).foldl (fun out i => out ++ [(Psub.row i).sum]) out, M2)
  else (out, M2)

/-- An Armadillo matrix `arma::mat`: its two dimensions and its cells, a cell that was
never written being `none` (`arma::mat out(n, m)` does not set its cells). -/
structure ArmaMat (α : Type) where
  nrow : Nat
  ncol : Nat
  val : Nat → Nat → Option α

/-- The declaration `arma::mat out(n, m)`. -/
def ArmaMat.new (n m : Nat) : ArmaMat α :=
  { nrow := n, ncol := m, val := fun _ _ => none }

/-- The assignment `out(i, j) = a`, checked: `none` when `(i, j)` is out of range. -/
def ArmaMat.set? (A : ArmaMat α) (i j : Nat) (a : α) : Option (ArmaMat α) :=
  if i < A.nrow ∧ j < A.ncol then
    some { A with val := fun r c => if r = i ∧ c = j then some a else A.val r c }
  else none

/-- Row `i` of an Armadillo matrix, cell by cell. -/
def ArmaMat.row (A : ArmaMat α) (i : Nat) : List (Option α) :=
  (List.range A.ncol).map (fun j => A.val i j)

/-- The matrix returned by `HamiltonFilter_2`, all of whose cells are written, as an
Armadillo matrix. -/
def ArmaMat.ofNumeric (M : NumericMatrix α) : ArmaMat α :=
  { nrow := M.nrow, ncol := M.ncol,
    val := fun i j => if i < M.nrow ∧ j < M.ncol then some (M.val i j) else none }

/-- One iteration `i` of the loop `out(0, i) = PLast(i)` of `f_get_Pstate`; the read of
`PLast` and the write into `out` are checked. -/
def f_get_Pstate_step (PLast : List α) (out : ArmaMat α) (i : Nat) : Option (ArmaMat α) :=
  match PLast[i]? with
  | none => none
  | some p => out.set? 0 i p

/-- `MSgarch::f_get_Pstate(theta, y, returnPLast)`: the returned matrix. -/
def f_get_Pstate [LinearOrderedField α] (exp log : α → α) (M : MSgarch σ V α)
    (theta : List α) (y : List α) (returnPLast : Bool) : Option (ArmaMat α) := do
  let M1 := loadparam M theta
  let M2 := prep_ineq_vol M1
  let y0 ← y[0]?
  let _vol := advance_vol M2 y (set_vol M2 y0)
  let lm := calc_lndMat M2 y
  let hf := HamiltonFilter_2 exp log lm.2 lm.1
  if returnPLast then
    (List.range hf.2.K).foldlM (f_get_Pstate_step hf.2.PLast) (ArmaMat.new 1 2)
  else some (ArmaMat.ofNumeric hf.1)

end Simulation

/-! ## Specification-side definitions -/

section SpecDefs

variable {α : Type}

/-- A `K`-state Markov chain as the claims on the filter assume it: `P` has `K` rows,
its entries on `K x K` are non-negative and each row sums to `1`; `P0` is a probability
vector of length `K`. -/
structure StochasticChain [LinearOrderedField α] (K : Nat) (P : NumericMatrix α)
    (P0 : List α) : Prop where
  nrow : P.nrow = K
  P_nonneg : ∀ i j, i < K → j < K → 0 ≤ P.val i j
  P_row : ∀ i, i < K → ∑ j ∈ Finset.range K, P.val i j = 1
  P0_len : P0.length = K
  P0_nonneg : ∀ k, k < K → 0 ≤ P0.getD k 0
  P0_sum : P0.sum = 1

/-- The unnormalised forward recursion of a hidden Markov chain: `forwardVec 0 = P0` and
`forwardVec (t+1) k = (sum_r forwardVec t r * P(r,k)) * exp (L(k,t))`. -/
def forwardVec [Field α] (exp : α → α) (K : Nat) (P : NumericMatrix α) (P0 : List α)
    (L : NumericMatrix α) : Nat → Nat → α
  | 0, k => P0.getD k 0
  | t + 1, k => (∑ r ∈ Finset.range K, forwardVec exp K P P0 L t r * P.val r k) * exp (L.val k t)

/-- One step of the Hamilton recursion as the specification words it, with the shift
`delta` fixed to `0`: from `(lnd, Pspot)` and column `t`, `Ppred = Pspot * P`,
`tmp[k] = Ppred[k] * exp (column[k] + delta)`, `lnd += log (sum tmp) - delta`,
`Pspot = tmp / sum tmp`. -/
def HF0_step [Field α] (exp log : α → α) (P : NumericMatrix α) (L : NumericMatrix α)
    (s : α × List α) (t : Nat) : α × List α :=
  let delta : α := 0
  let Ppred := matrixProd s.2 P
  let tmp := vecMul Ppred ((L.col t).map (fun l => exp (l + delta)))
  (s.1 + (log tmp.sum - delta), tmp.map (fun x => x / tmp.sum))

/-- The Hamilton recursion run with `delta = 0` at every step over all the columns of
`L`, started from `lnd = 0`, `Pspot = P0`: the log-likelihood it accumulates. -/
def HamiltonFilter_delta0 [Field α] (exp log : α → α) (P : NumericMatrix α) (P0 : List α)
    (L : NumericMatrix α) : α :=
  ((List.range L.ncol).foldl (HF0_step exp log P L) (0, P0)).1

/-- The Normal log-density `dnorm(x, mu, sd, log = 1)` of R:
`-(log sqrt(2 pi) + ((x - mu)/sd)^2 / 2 + log sd)`, the constant `log sqrt(2 pi)` being
passed as `lnSqrt2Pi`. -/
def dnorm_log [Field α] (log : α → α) (lnSqrt2Pi : α) (x mu sd : α) : α :=
  -(lnSqrt2Pi + ((x - mu) / sd) ^ 2 / 2 + log sd)

/-- The invariant of the filter loops after column `t` has been taken in: `lnd` is the
log of the mass of the forward vector before column `t`, `Pspot` is that vector
normalised, and `tmp` is the predictive vector weighted by `exp (column t + delta)`. -/
def HFInv (K : Nat) (P : NumericMatrix ℝ) (P0 : List ℝ) (L : NumericMatrix ℝ) (t : Nat)
    (s : HFState ℝ) : Prop :=
  s.lnd = Real.log (∑ k ∈ Finset.range K, forwardVec Real.exp K P P0 L t k) ∧
  s.Pspot = (List.range K).map (fun k => forwardVec Real.exp K P P0 L t k
      / ∑ j ∈ Finset.range K, forwardVec Real.exp K P P0 L t j) ∧
  s.tmp = (List.range K).map (fun k =>
      (∑ r ∈ Finset.range K, forwardVec Real.exp K P P0 L t r
          / (∑ j ∈ Finset.range K, forwardVec Real.exp K P P0 L t j) * P.val r k)
        * Real.exp (L.val k t + s.delta))

/-- The weight of the regime path `s_0, ..., s_n` under observations with log-densities
`L`: `P0[s_0] * prod_{t < n} P(s_t, s_{t+1}) * exp (L(s_{t+1}, t))`. -/
def pathWeight [Field α] (exp : α → α) (K : Nat) (P : NumericMatrix α) (P0 : List α)
    (L : NumericMatrix α) (n : Nat) (s : Fin (n + 1) → Fin K) : α :=
  P0.getD (s 0) 0 * ∏ t : Fin n, (P.val (s t.castSucc) (s t.succ) * exp (L.val (s t.succ) t))

/-- The invariant of the loop of `f_sim` before iteration `t`: the two vectors keep
their length `ntot`, there is one volatility per regime, and the labels written so far
are regime indices. -/
def SimInv {V : Type} (K ntot t : Nat) (s : SimState V α) : Prop :=
  s.y.length = ntot ∧ s.S.length = ntot ∧ s.vol.length = K ∧ ∀ i, i < t → s.S.getD i 0 < K

/-- The engine as `f_rnd`, `f_pdf` and `f_cdf` leave it after
`loadparam(theta); prep_ineq_vol(); ...; HamiltonFilter(calc_lndMat(y));`. -/
def engine_after_filter {σ V : Type} [LinearOrderedField α] (exp log : α → α)
    (M : MSgarch σ V α) (theta : List α) (y : List α) : MSgarch σ V α :=
  (HamiltonFilter exp log (calc_lndMat (prep_ineq_vol (loadparam M theta)) y).2
    (calc_lndMat (prep_ineq_vol (loadparam M theta)) y).1).2

/-- The volatility vector as `f_rnd`, `f_pdf` and `f_cdf` compute it: initialised at
`y0 = y[0]` and advanced over all of `y`. -/
def vol_after {σ V : Type} [LinearOrderedField α] (M : MSgarch σ V α) (theta : List α)
    (y : List α) (y0 : α) : List V :=
  advance_vol (prep_ineq_vol (loadparam M theta)) y
    (set_vol (prep_ineq_vol (loadparam M theta)) y0)

/-- The draws of `f_rnd` as a recursion on their number: each draw samples its regime
from the one vector `M.PLast`, its innovation from that regime, and scales it with the
one volatility vector `vol`; nothing is carried from a draw to the next but the stream. -/
def rnd_draws {σ V : Type} [LinearOrderedField α] (sqrt : α → α) (M : MSgarch σ V α)
    (vol : List V) : Nat → (Nat → α) → Option (List α × List Nat)
  | 0, _ => some ([], [])
  | n + 1, rng => do
    let st ← sampleState M.PLast (rng 0)
    let zr ← rndgen M st (fun j => rng (j + 1))
    let h ← vol_h_at M vol st
    let rest ← rnd_draws sqrt M vol n zr.2
    some (zr.1 * sqrt h :: rest.1, st :: rest.2)

/-- The regime-mixture density at the point `xi`:
`sum_k PLast[k] * pdf_k (xi / sigma_k) / sigma_k`, with `sigma_k = sqrt (vol[k].h)` and
`pdf_k` the standardized density of model `k`. -/
def mixture_pdf {σ V : Type} [LinearOrderedField α] (sqrt : α → α) :
    List (Spec σ V α) → List V → List α → α → α
  | it :: specs, v :: vol, pl :: PLast, xi =>
    pl * (it.impl.spec_calc_pdf it.state (xi / sqrt (it.impl.vol_h v)) / sqrt (it.impl.vol_h v))
      + mixture_pdf sqrt specs vol PLast xi
  | _, _, _, _ => 0

/-- The vector `PLast` as `f_get_Pstate` finds it after
`loadparam(theta); prep_ineq_vol(); ...; HamiltonFilter_2(calc_lndMat(y));`. -/
def PLast_after_filter_2 {σ V : Type} [LinearOrderedField α] (exp log : α → α)
    (M : MSgarch σ V α) (theta : List α) (y : List α) : List α :=
  (HamiltonFilter_2 exp log (calc_lndMat (prep_ineq_vol (loadparam M theta)) y).2
    (calc_lndMat (prep_ineq_vol (loadparam M theta)) y).1).2.PLast

end SpecDefs

/-! ## A concrete engine, used to instantiate the theorems -/

section Example

/-- A one-parameter constant-variance model: the state is the loaded slice, the
variance is `1` throughout, the kernel of `y` is `-(y * y) / 2` scaled by the loaded
parameter, and the prior accepts every slice with log-density `0`. -/
def exBase (α : Type) [LinearOrderedField α] : Base (List α) α α where
  spec_name := "ex"
  spec_theta0 := [1]
  spec_Sigma0 := [1]
  spec_label := ["a"]
  spec_lower := [0]
  spec_upper := [2]
  spec_ineq_lb := 0
  spec_ineq_ub := 1
  spec_nb_coeffs := 1
  spec_nb_coeffs_model := 1
  spec_loadparam := fun _ th => th
  spec_prep_ineq_vol := fun s => s
  spec_prep_kernel := fun s => s
  spec_ineq_func := fun s => s.getD 0 0
  spec_calc_prior := fun _ _ => ⟨true, 0⟩
  spec_set_vol := fun _ _ => 1
  spec_increment_vol := fun _ v _ => v
  spec_calc_kernel := fun s _ y => -(s.getD 0 0 * (y * y)) / 2
  spec_calc_pdf := fun _ _ => 1
  spec_calc_cdf := fun _ _ => 1
  spec_rndgen := fun _ rng => (rng 0 - 1 / 2, fun i => rng (i + 1))
  vol_h := fun v => v

/-- The engine built by the constructor from two copies of `exBase`. -/
def exEngine (α : Type) [LinearOrderedField α] (log : α → α) : MSgarch (List α) α α :=
  MSgarch.new log [⟨exBase α, []⟩, ⟨exBase α, []⟩]

/-- A parameter vector of the declared length `1 + 1 + 2 * 1` for `exEngine`, with
transition rows `(3/10, 7/10)` and `(2/5, 3/5)`. -/
def exTheta (α : Type) [LinearOrderedField α] : List α := [1, 2, 3 / 10, 2 / 5]

/-- The observation series `1, 0.5, -0.3, 0.8`. -/
def exY (α : Type) [LinearOrderedField α] : List α := [1, 1 / 2, -(3 / 10), 4 / 5]

/-- The engine `exEngine` with `exTheta` loaded. -/
def exLoaded (α : Type) [LinearOrderedField α] (log : α → α) : MSgarch (List α) α α :=
  prep_ineq_vol (loadparam (exEngine α log) (exTheta α))

/-- The `2 x 3` log-density matrix of `exY` under `exLoaded`. -/
def exL (α : Type) [LinearOrderedField α] (log : α → α) : NumericMatrix α :=
  (calc_lndMat (exLoaded α log) (exY α)).1

/-- The one-regime engine built by the constructor from `exBase`, with the vector `[1]`
(one model parameter, no transition parameter) loaded. -/
def ex1Loaded (α : Type) [LinearOrderedField α] (log : α → α) : MSgarch (List α) α α :=
  prep_ineq_vol (loadparam (MSgarch.new log [⟨exBase α, []⟩]) [1])

/-- The `1 x 3` log-density matrix of `exY` under `ex1Loaded`. -/
def ex1L (α : Type) [LinearOrderedField α] (log : α → α) : NumericMatrix α :=
  (calc_lndMat (ex1Loaded α log) (exY α)).1

/-- The `2 x 1` log-density matrix of the series `0, 0` under `exLoaded`. -/
def exL0 (α : Type) [LinearOrderedField α] (log : α → α) : NumericMatrix α :=
  (calc_lndMat (exLoaded α log) [0, 0]).1

/-- A parameter vector of the declared length whose first transition entry, `3/2`, is
outside `(0, 1)`. -/
def exThetaBad (α : Type) [LinearOrderedField α] : List α := [1, 2, 3 / 2, 2 / 5]

/-- A batch of two parameter vectors: row `0` is `exThetaBad`, row `1` is `exTheta`. -/
def exThetas (α : Type) [LinearOrderedField α] : NumericMatrix α :=
  ⟨2, 4, fun i j => if i = 0 then (exThetaBad α).getD j 0 else (exTheta α).getD j 0⟩

/-- A stream of uniform draws: `1/10, 1/2, 33/100, 1/2, 1/2, ...`. -/
def exStream (α : Type) [LinearOrderedField α] : Nat → α :=
  fun i => ([1 / 10, 1 / 2, 33 / 100, 1 / 2] : List α).getD i (1 / 2)

end Example

/-! ## Lemmas on vectors and slices -/

section VecLemmas

variable {α : Type}

theorem MyCumsum_eq_sum_take (x : List Nat) (n : Nat) : MyCumsum x n = (x.take n).sum := by
  unfold MyCumsum
  induction n with
  | zero => simp
  | succ n ih =>
    rw [List.range_succ, List.foldl_append, ih, List.take_succ, List.sum_append]
    simp only [List.foldl_cons, List.foldl_nil, List.getD_eq_getElem?_getD]
    cases h : x[n]? <;> simp

theorem sum_take_succ_le (x : List Nat) (k : Nat) (hk : k < x.length) :
    (x.take k).sum + x.getD k 0 ≤ x.sum := by
  have h1 := List.sum_take_succ x k hk
  have h2 := List.sum_take_add_sum_drop x (k + 1)
  rw [List.getD_eq_getElem x 0 hk]
  omega

theorem vecRange_length (l : List α) (a b : Nat) (hb : b ≤ l.length) :
    (vecRange l a b).length = b - a := by
  unfold vecRange
  simp [List.length_drop, List.length_take, Nat.min_eq_left hb]

theorem vecRange_getElem? (l : List α) (a b i : Nat) (hi : a + i < b) :
    (vecRange l a b)[i]? = l[a + i]? := by
  unfold vecRange
  rw [List.getElem?_drop, List.getElem?_take_of_lt hi]

theorem take_append_vecRange (l : List α) (a b : Nat) (hab : a ≤ b) :
    l.take a ++ vecRange l a b = l.take b := by
  unfold vecRange
  have h : l.take a = (l.take b).take a := by
    rw [List.take_take, Nat.min_eq_left hab]
  rw [h, List.take_append_drop]

theorem vecRange_append (l : List α) (a b c : Nat) (hab : a ≤ b) (hbc : b ≤ c) :
    vecRange l a b ++ vecRange l b c = vecRange l a c := by
  unfold vecRange
  have h : l.take b = (l.take c).take b := by
    rw [List.take_take, Nat.min_eq_left hbc]
  rw [h]
  generalize l.take c = L
  by_cases hL : a ≤ (L.take b).length
  · rw [← List.drop_append_of_le_length hL, List.take_append_drop]
  · have hlen : L.length < a := by
      rw [List.length_take] at hL
      omega
    have e1 : L.drop a = [] := List.drop_eq_nil_of_le (by omega)
    have e2 : L.drop b = [] := List.drop_eq_nil_of_le (by omega)
    have e3 : (L.take b).drop a = [] :=
      List.drop_eq_nil_of_le (by rw [List.length_take]; omega)
    rw [e1, e2, e3]
    rfl

/-- Consecutive slices `[off k, off (k+1))`, `k < m`, glue to the slice `[off 0, off m)`. -/
theorem flatten_vecRange (l : List α) (off : Nat → Nat) (hmono : ∀ k, off k ≤ off (k + 1))
    (m : Nat) :
    ((List.range m).map (fun k => vecRange l (off k) (off (k + 1)))).flatten
      = vecRange l (off 0) (off m) := by
  have hle : ∀ m, off 0 ≤ off m := by
    intro m
    induction m with
    | zero => exact le_refl _
    | succ m ih => exact le_trans ih (hmono m)
  induction m with
  | zero => simp [vecRange]
  | succ m ih =>
    rw [List.range_succ, List.map_append, List.flatten_append, ih]
    simp only [List.map_cons, List.map_nil, List.flatten_cons, List.flatten_nil, List.append_nil]
    exact vecRange_append l _ _ _ (hle m) (hmono m)

theorem sum_map_range_eq_finset {β : Type} [AddCommMonoid β] (f : Nat → β) (n : Nat) :
    ((List.range n).map f).sum = ∑ i ∈ Finset.range n, f i := by
  induction n with
  | zero => simp
  | succ n ih => rw [List.sum_range_succ, Finset.sum_range_succ, ih]

theorem eq_map_range_getD [Zero α] (l : List α) (n : Nat) (h : l.length = n) :
    l = (List.range n).map (fun i => l.getD i 0) := by
  apply List.ext_getElem?
  intro i
  rw [List.getElem?_map]
  by_cases hi : i < n
  · rw [List.getElem?_range hi]
    simp [List.getD_eq_getElem?_getD, List.getElem?_eq_getElem (h ▸ hi)]
  · have h1 : l[i]? = none := List.getElem?_eq_none (by omega)
    have h2 : (List.range n)[i]? = none := List.getElem?_eq_none (by simp; omega)
    simp [h1, h2]

end VecLemmas

/-! ## Parameter layout: lemmas -/

section LayoutLemmas

variable {σ V α : Type}

theorem extract_P_it_eq [Ring α] (M : MSgarch σ V α) (theta : List α) (k : Nat) :
    extract_P_it M theta k
      = vecRange theta (M.NbParams.sum + k * (M.K - 1)) (M.NbParams.sum + (k + 1) * (M.K - 1))
        ++ [1 - (vecRange theta (M.NbParams.sum + k * (M.K - 1))
              (M.NbParams.sum + (k + 1) * (M.K - 1))).sum] := rfl

/-- Under the declared length, the free part of row `k` is in range. -/
theorem P_slice_bound (K T k n : Nat) (hk : k < K) (hlen : n = T + K * (K - 1)) :
    T + (k + 1) * (K - 1) ≤ n := by
  have h : (k + 1) * (K - 1) ≤ K * (K - 1) := Nat.mul_le_mul_right _ hk
  omega

theorem P_slice_length [Ring α] (M : MSgarch σ V α) (theta : List α) (k : Nat)
    (hk : k < M.K) (hlen : theta.length = M.NbParams.sum + M.K * (M.K - 1)) :
    (vecRange theta (M.NbParams.sum + k * (M.K - 1))
      (M.NbParams.sum + (k + 1) * (M.K - 1))).length = M.K - 1 := by
  rw [vecRange_length _ _ _ (P_slice_bound M.K _ k _ hk hlen)]
  rw [Nat.add_mul]
  omega

theorem extract_P_it_length [Ring α] (M : MSgarch σ V α) (theta : List α) (k : Nat)
    (hK : 1 ≤ M.K) (hk : k < M.K)
    (hlen : theta.length = M.NbParams.sum + M.K * (M.K - 1)) :
    (extract_P_it M theta k).length = M.K := by
  rw [extract_P_it_eq, List.length_append, P_slice_length M theta k hk hlen]
  simp
  omega

/-- What the loop of `loadparam` leaves in the matrix: rows `k0 .. k0 + #models - 1`
are the transition slices, the others are untouched. -/
theorem loadparam_loop_P [Ring α] (M : MSgarch σ V α) (theta : List α)
    (specs : List (Spec σ V α)) (k0 : Nat) (P_mat : NumericMatrix α) :
    (loadparam_loop M theta specs k0 P_mat).2.nrow = P_mat.nrow ∧
    (loadparam_loop M theta specs k0 P_mat).2.ncol = P_mat.ncol ∧
    ∀ i j, (loadparam_loop M theta specs k0 P_mat).2.val i j
      = if k0 ≤ i ∧ i < k0 + specs.length then (extract_P_it M theta i).getD j 0
        else P_mat.val i j := by
  induction specs generalizing k0 P_mat with
  | nil =>
    refine ⟨rfl, rfl, ?_⟩
    intro i j
    rw [if_neg (by simp only [List.length_nil]; omega)]
    rfl
  | cons it rest ih =>
    obtain ⟨h1, h2, h3⟩ := ih (k0 + 1) (P_mat.setRow k0 (extract_P_it M theta k0))
    refine ⟨?_, ?_, ?_⟩
    · simpa [loadparam_loop, NumericMatrix.setRow] using h1
    · simpa [loadparam_loop, NumericMatrix.setRow] using h2
    · intro i j
      simp only [loadparam_loop, List.length_cons]
      rw [h3]
      by_cases hi : i = k0
      · subst hi
        simp [NumericMatrix.setRow]
      · have e1 : (k0 + 1 ≤ i ∧ i < k0 + 1 + rest.length)
            ↔ (k0 ≤ i ∧ i < k0 + (rest.length + 1)) := by omega
        simp only [e1, NumericMatrix.setRow, if_neg hi]

theorem loadparam_P_row [Ring α] (M : MSgarch σ V α) (theta : List α) (k : Nat)
    (hK : 1 ≤ M.K) (hspecs : M.specs.length = M.K) (hk : k < M.K)
    (hlen : theta.length = M.NbParams.sum + M.K * (M.K - 1)) :
    (loadparam M theta).P.row k = extract_P_it M theta k := by
  obtain ⟨_, h2, h3⟩ := loadparam_loop_P M theta M.specs 0 (NumericMatrix.zero M.K M.K)
  have hc : (loadparam M theta).P.ncol = M.K := by
    simpa [loadparam, NumericMatrix.zero] using h2
  have hv : ∀ j, (loadparam M theta).P.val k j = (extract_P_it M theta k).getD j 0 := by
    intro j
    have := h3 k j
    simp only [loadparam]
    rw [this, if_pos ⟨Nat.zero_le _, by omega⟩]
  unfold NumericMatrix.row
  rw [hc]
  simp only [hv]
  exact (eq_map_range_getD _ _ (extract_P_it_length M theta k hK hk hlen)).symm

end LayoutLemmas

/-! ## Hamilton filter: lemmas -/

section FilterLemmas

open Finset

variable {σ V : Type}

theorem vecMul_map_range (K : Nat) (f g : Nat → ℝ) :
    vecMul ((List.range K).map f) ((List.range K).map g)
      = (List.range K).map (fun i => f i * g i) := by
  unfold vecMul
  rw [List.zipWith_map, List.zipWith_same]

theorem matrixProd_map_range (K : Nat) (f : Nat → ℝ) (P : NumericMatrix ℝ) (h : P.nrow = K) :
    matrixProd ((List.range K).map f) P
      = (List.range K).map (fun i => ∑ r ∈ range K, f r * P.val r i) := by
  unfold matrixProd NumericMatrix.col
  rw [List.length_map, List.length_range, h]
  apply List.map_congr_left
  intro i _
  rw [vecMul_map_range, sum_map_range_eq_finset]

/-- The unnormalised vector `tmp` of one filter step, entry by entry. -/
theorem tmp_map_range (K : Nat) (f : Nat → ℝ) (P L : NumericMatrix ℝ) (hP : P.nrow = K)
    (hL : L.nrow = K) (t : Nat) (δ : ℝ) :
    vecMul (matrixProd ((List.range K).map f) P) ((L.col t).map (fun l => Real.exp (l + δ)))
      = (List.range K).map
          (fun k => (∑ r ∈ range K, f r * P.val r k) * Real.exp (L.val k t + δ)) := by
  rw [matrixProd_map_range K f P hP]
  unfold NumericMatrix.col
  rw [hL, List.map_map, vecMul_map_range]
  rfl

theorem HF_predict_tmp (M : MSgarch σ V ℝ) (L : NumericMatrix ℝ) (K : Nat)
    (hP : M.P.nrow = K) (hL : L.nrow = K) (lnd : ℝ) (f : Nat → ℝ) (t : Nat) :
    (HF_predict Real.exp M L lnd ((List.range K).map f) t).tmp
      = (List.range K).map (fun k => (∑ r ∈ range K, f r * M.P.val r k)
          * Real.exp (L.val k t + (HF_predict Real.exp M L lnd ((List.range K).map f) t).delta)) := by
  simp only [HF_predict]
  exact tmp_map_range K f M.P L hP hL t _

section Forward

variable (K : Nat) (P : NumericMatrix ℝ) (P0 : List ℝ) (L : NumericMatrix ℝ)

theorem forwardVec_succ (t k : Nat) :
    forwardVec Real.exp K P P0 L (t + 1) k
      = (∑ r ∈ range K, forwardVec Real.exp K P P0 L t r * P.val r k) * Real.exp (L.val k t) :=
  rfl

theorem forwardVec_nonneg (h : StochasticChain K P P0) (t k : Nat) (hk : k < K) :
    0 ≤ forwardVec Real.exp K P P0 L t k := by
  induction t generalizing k with
  | zero => exact h.P0_nonneg k hk
  | succ t ih =>
    rw [forwardVec_succ]
    apply mul_nonneg _ (Real.exp_pos _).le
    apply sum_nonneg
    intro r hr
    exact mul_nonneg (ih r (mem_range.mp hr)) (h.P_nonneg r k (mem_range.mp hr) hk)

theorem forwardVec_zero_sum (h : StochasticChain K P P0) :
    ∑ k ∈ range K, forwardVec Real.exp K P P0 L 0 k = 1 := by
  have e : P0.sum = ∑ k ∈ range K, P0.getD k 0 := by
    conv_lhs => rw [eq_map_range_getD P0 K h.P0_len]
    exact sum_map_range_eq_finset _ _
  rw [← h.P0_sum, e]
  rfl

/-- The predictive mass is the filtered mass: `sum_k sum_r b r * P(r,k) = sum_r b r`. -/
theorem sum_pred_eq (h : StochasticChain K P P0) (b : Nat → ℝ) :
    ∑ k ∈ range K, ∑ r ∈ range K, b r * P.val r k = ∑ r ∈ range K, b r := by
  rw [sum_comm]
  apply sum_congr rfl
  intro r hr
  rw [← mul_sum, h.P_row r (mem_range.mp hr), mul_one]

theorem forwardVec_sum_pos (h : StochasticChain K P P0) (t : Nat) :
    0 < ∑ k ∈ range K, forwardVec Real.exp K P P0 L t k := by
  induction t with
  | zero => rw [forwardVec_zero_sum K P P0 L h]; exact one_pos
  | succ t ih =>
    have hnn : ∀ k ∈ range K, 0 ≤ forwardVec Real.exp K P P0 L (t + 1) k :=
      fun k hk => forwardVec_nonneg K P P0 L h (t + 1) k (mem_range.mp hk)
    rcases (sum_nonneg hnn).lt_or_eq with hlt | heq
    · exact hlt
    · exfalso
      have hz := (sum_eq_zero_iff_of_nonneg hnn).mp heq.symm
      have hz2 : ∀ k ∈ range K,
          ∑ r ∈ range K, forwardVec Real.exp K P P0 L t r * P.val r k = 0 := by
        intro k hk
        have := hz k hk
        rw [forwardVec_succ] at this
        rcases mul_eq_zero.mp this with h0 | h0
        · exact h0
        · exact absurd h0 (Real.exp_pos _).ne.symm
      have := sum_pred_eq K P P0 h (forwardVec Real.exp K P P0 L t)
      rw [sum_eq_zero hz2] at this
      exact absurd this.symm ih.ne.symm

end Forward

/-- The arithmetic of one filter step.  With `b` the forward vector before column `t`,
`S` its mass, `b1` the forward vector after column `t` and `S1` its mass: the sum of
`tmp` is `exp δ * S1 / S`, whatever the shift `δ`. -/
theorem tmp_sum (K : Nat) (P L : NumericMatrix ℝ) (b : Nat → ℝ) (S δ : ℝ) (t : Nat) :
    ∑ k ∈ range K, (∑ r ∈ range K, b r / S * P.val r k) * Real.exp (L.val k t + δ)
      = Real.exp δ * (∑ k ∈ range K, (∑ r ∈ range K, b r * P.val r k) * Real.exp (L.val k t)) / S := by
  rw [mul_sum, sum_div]
  apply sum_congr rfl
  intro k _
  have e : ∑ r ∈ range K, b r / S * P.val r k = (∑ r ∈ range K, b r * P.val r k) / S := by
    rw [sum_div]
    apply sum_congr rfl
    intro r _
    ring
  rw [e, Real.exp_add]
  ring

section Invariant

variable (K : Nat) (P : NumericMatrix ℝ) (P0 : List ℝ) (L : NumericMatrix ℝ)

/-- Renormalising `tmp` after column `t` gives the forward vector after column `t`,
normalised, and the likelihood increment `-δ + log (sum tmp)` moves the log-mass from
step `t` to step `t + 1`: the shift `δ` cancels. -/
theorem normalize_step (h : StochasticChain K P P0) (t : Nat) (δ : ℝ) :
    Real.log (∑ k ∈ range K, forwardVec Real.exp K P P0 L t k)
        + (-δ + Real.log (((List.range K).map (fun k =>
            (∑ r ∈ range K, forwardVec Real.exp K P P0 L t r
                / (∑ j ∈ range K, forwardVec Real.exp K P P0 L t j) * P.val r k)
              * Real.exp (L.val k t + δ))).sum))
      = Real.log (∑ k ∈ range K, forwardVec Real.exp K P P0 L (t + 1) k) ∧
    ((List.range K).map (fun k =>
        (∑ r ∈ range K, forwardVec Real.exp K P P0 L t r
            / (∑ j ∈ range K, forwardVec Real.exp K P P0 L t j) * P.val r k)
          * Real.exp (L.val k t + δ))).map
      (fun x => x / ((List.range K).map (fun k =>
        (∑ r ∈ range K, forwardVec Real.exp K P P0 L t r
            / (∑ j ∈ range K, forwardVec Real.exp K P P0 L t j) * P.val r k)
          * Real.exp (L.val k t + δ))).sum)
      = (List.range K).map (fun k => forwardVec Real.exp K P P0 L (t + 1) k
          / ∑ j ∈ range K, forwardVec Real.exp K P P0 L (t + 1) j) := by
  have hS := forwardVec_sum_pos K P P0 L h t
  have hS1 := forwardVec_sum_pos K P P0 L h (t + 1)
  have hsum := tmp_sum K P L (forwardVec Real.exp K P P0 L t)
    (∑ j ∈ range K, forwardVec Real.exp K P P0 L t j) δ t
  have hS1def : ∑ k ∈ range K, (∑ r ∈ range K, forwardVec Real.exp K P P0 L t r * P.val r k)
      * Real.exp (L.val k t) = ∑ k ∈ range K, forwardVec Real.exp K P P0 L (t + 1) k := rfl
  rw [hS1def] at hsum
  rw [sum_map_range_eq_finset, hsum]
  generalize (∑ j ∈ range K, forwardVec Real.exp K P P0 L t j) = S at *
  generalize hS1g : (∑ j ∈ range K, forwardVec Real.exp K P P0 L (t + 1) j) = S1 at *
  have he := Real.exp_pos δ
  constructor
  · rw [Real.log_div (mul_pos he hS1).ne.symm hS.ne.symm,
      Real.log_mul he.ne.symm hS1.ne.symm, Real.log_exp]
    ring
  · rw [List.map_map]
    apply List.map_congr_left
    intro k _
    simp only [Function.comp]
    rw [forwardVec_succ, Real.exp_add]
    have e : ∑ r ∈ range K, forwardVec Real.exp K P P0 L t r / S * P.val r k
        = (∑ r ∈ range K, forwardVec Real.exp K P P0 L t r * P.val r k) / S := by
      rw [sum_div]
      apply sum_congr rfl
      intro r _
      ring
    rw [e]
    field_simp
    ring

variable {P P0}

theorem HFInv_predict (M : MSgarch σ V ℝ) (hM : M.P.nrow = K) (hL : L.nrow = K) (t : Nat) :
    HFInv K M.P M.P0 L t (HF_predict Real.exp M L
      (Real.log (∑ k ∈ range K, forwardVec Real.exp K M.P M.P0 L t k))
      ((List.range K).map (fun k => forwardVec Real.exp K M.P M.P0 L t k
        / ∑ j ∈ range K, forwardVec Real.exp K M.P M.P0 L t j)) t) :=
  ⟨rfl, rfl, HF_predict_tmp M L K hM hL _ _ t⟩

theorem HFInv_init (M : MSgarch σ V ℝ) (h : StochasticChain K M.P M.P0) (hL : L.nrow = K) :
    HFInv K M.P M.P0 L 0 (HF_predict Real.exp M L 0 M.P0 0) := by
  have h0 := forwardVec_zero_sum K M.P M.P0 L h
  have := HFInv_predict K L M h.nrow hL 0
  rw [h0, Real.log_one] at this
  simp only [div_one] at this
  have e : (List.range K).map (fun k => forwardVec Real.exp K M.P M.P0 L 0 k) = M.P0 :=
    (eq_map_range_getD M.P0 K h.P0_len).symm
  rw [e] at this
  simp only [HFInv, h0, Real.log_one, div_one]
  simpa only [HFInv, h0, Real.log_one, div_one] using this

theorem HFInv_step (M : MSgarch σ V ℝ) (h : StochasticChain K M.P M.P0) (hL : L.nrow = K)
    (t : Nat) (s : HFState ℝ) (hs : HFInv K M.P M.P0 L t s) :
    HFInv K M.P M.P0 L (t + 1) (HF_step Real.exp Real.log M L s (t + 1)) := by
  obtain ⟨h1, _, h3⟩ := hs
  obtain ⟨n1, n2⟩ := normalize_step K M.P M.P0 L h t s.delta
  unfold HF_step
  simp only []
  rw [h1, h3, n1, n2]
  exact HFInv_predict K L M h.nrow hL (t + 1)

theorem HFInv_foldl (M : MSgarch σ V ℝ) (h : StochasticChain K M.P M.P0) (hL : L.nrow = K)
    (m : Nat) :
    HFInv K M.P M.P0 L m
      ((List.range' 1 m).foldl (HF_step Real.exp Real.log M L)
        (HF_predict Real.exp M L 0 M.P0 0)) := by
  induction m with
  | zero => exact HFInv_init K L M h hL
  | succ m ih =>
    rw [List.range'_concat, List.foldl_append]
    simp only [List.foldl_cons, List.foldl_nil, one_mul]
    rw [Nat.add_comm 1 m]
    exact HFInv_step K L M h hL m _ ih

/-- The log-likelihood returned by the filter is the log of the mass of the forward
vector after the last column. -/
theorem HamiltonFilter_lnd (M : MSgarch σ V ℝ) (h : StochasticChain K M.P M.P0)
    (hL : L.nrow = K) (hn : 1 ≤ L.ncol) :
    (HamiltonFilter Real.exp Real.log M L).1
      = Real.log (∑ k ∈ range K, forwardVec Real.exp K M.P M.P0 L L.ncol k) := by
  obtain ⟨h1, _, h3⟩ := HFInv_foldl K L M h hL (L.ncol - 1)
  obtain ⟨n1, _⟩ := normalize_step K M.P M.P0 L h (L.ncol - 1)
    ((List.range' 1 (L.ncol - 1)).foldl (HF_step Real.exp Real.log M L)
        (HF_predict Real.exp M L 0 M.P0 0)).delta
  unfold HamiltonFilter
  simp only []
  rw [h1, h3, n1, Nat.sub_add_cancel hn]

end Invariant

section Paths

variable (K : Nat) (P : NumericMatrix ℝ) (P0 : List ℝ) (L : NumericMatrix ℝ)

/-- A sum over all paths of length `n + 2` splits by the last state. -/
theorem sum_snoc (n : Nat) (g : (Fin (n + 1) → Fin K) → ℝ) :
    ∑ s : Fin (n + 1) → Fin K, g s
      = ∑ k : Fin K, ∑ s : Fin n → Fin K, g (@Fin.snoc n (fun _ => Fin K) s k) := by
  have e1 := Fintype.sum_prod_type
    (fun x : Fin K × (Fin n → Fin K) => g (@Fin.snoc n (fun _ => Fin K) x.2 x.1))
  have e2 := Equiv.sum_comp (Fin.snocEquiv (fun _ : Fin (n + 1) => Fin K)) g
  rw [← e2, ← e1]
  rfl

theorem pathWeight_snoc (n : Nat) (s : Fin (n + 1) → Fin K) (k : Fin K) :
    pathWeight Real.exp K P P0 L (n + 1) (@Fin.snoc (n + 1) (fun _ => Fin K) s k)
      = pathWeight Real.exp K P P0 L n s
        * (P.val (s (Fin.last n)) k * Real.exp (L.val k n)) := by
  unfold pathWeight
  rw [Fin.prod_univ_castSucc]
  have h0 : (@Fin.snoc (n + 1) (fun _ => Fin K) s k) 0 = s 0 := by
    have := @Fin.snoc_castSucc (n + 1) (fun _ => Fin K) k s 0
    simpa using this
  have hc : ∀ i : Fin (n + 1),
      (@Fin.snoc (n + 1) (fun _ => Fin K) s k) i.castSucc = s i :=
    fun i => @Fin.snoc_castSucc (n + 1) (fun _ => Fin K) k s i
  have hl : (@Fin.snoc (n + 1) (fun _ => Fin K) s k) (Fin.last n).succ = k := by
    rw [Fin.succ_last]
    exact @Fin.snoc_last (n + 1) (fun _ => Fin K) k s
  rw [h0, hl, hc]
  simp only [Fin.succ_castSucc, hc, Fin.coe_castSucc, Fin.val_last]
  ring

/-- The forward vector at step `n` is the total weight of the paths ending in `k`. -/
theorem forwardVec_eq_paths (n : Nat) (k : Fin K) :
    forwardVec Real.exp K P P0 L n k
      = ∑ s : Fin n → Fin K,
          pathWeight Real.exp K P P0 L n (@Fin.snoc n (fun _ => Fin K) s k) := by
  induction n generalizing k with
  | zero =>
    have h0 : ∀ s : Fin 0 → Fin K, (@Fin.snoc 0 (fun _ => Fin K) s k) 0 = k :=
      fun s => @Fin.snoc_last 0 (fun _ => Fin K) k s
    simp [pathWeight, forwardVec, h0]
  | succ n ih =>
    rw [forwardVec_succ, Finset.sum_range, sum_snoc, Finset.sum_mul]
    apply Finset.sum_congr rfl
    intro r _
    rw [ih r, Finset.sum_mul, Finset.sum_mul]
    apply Finset.sum_congr rfl
    intro s _
    rw [pathWeight_snoc]
    have hl : (@Fin.snoc n (fun _ => Fin K) s r) (Fin.last n) = r :=
      @Fin.snoc_last n (fun _ => Fin K) r s
    rw [hl]
    ring

/-- The mass of the forward vector at step `n` is the total weight of all paths. -/
theorem forwardVec_sum_eq_paths (n : Nat) :
    ∑ k ∈ Finset.range K, forwardVec Real.exp K P P0 L n k
      = ∑ s : Fin (n + 1) → Fin K, pathWeight Real.exp K P P0 L n s := by
  rw [Finset.sum_range, sum_snoc]
  apply Finset.sum_congr rfl
  intro k _
  exact forwardVec_eq_paths K P P0 L n k

end Paths

section Unshifted

variable (K : Nat) (P : NumericMatrix ℝ) (P0 : List ℝ) (L : NumericMatrix ℝ)

/-- The recursion with `delta = 0` tracks the forward vector as well. -/
theorem HF0_foldl (h : StochasticChain K P P0) (hL : L.nrow = K) (m : Nat) :
    (List.range m).foldl (HF0_step Real.exp Real.log P L) (0, P0)
      = (Real.log (∑ k ∈ range K, forwardVec Real.exp K P P0 L m k),
         (List.range K).map (fun k => forwardVec Real.exp K P P0 L m k
            / ∑ j ∈ range K, forwardVec Real.exp K P P0 L m j)) := by
  induction m with
  | zero =>
    have h0 := forwardVec_zero_sum K P P0 L h
    have e : (List.range K).map (fun k => forwardVec Real.exp K P P0 L 0 k) = P0 :=
      (eq_map_range_getD P0 K h.P0_len).symm
    simp only [List.range_zero, List.foldl_nil, h0, Real.log_one, div_one, e]
  | succ m ih =>
    obtain ⟨n1, n2⟩ := normalize_step K P P0 L h m 0
    rw [List.range_succ, List.foldl_append, ih]
    simp only [List.foldl_cons, List.foldl_nil, HF0_step]
    rw [tmp_map_range K _ P L h.nrow hL m 0, n2, ← n1]
    congr 1
    ring

theorem HamiltonFilter_delta0_eq (h : StochasticChain K P P0) (hL : L.nrow = K) :
    HamiltonFilter_delta0 Real.exp Real.log P P0 L
      = Real.log (∑ k ∈ range K, forwardVec Real.exp K P P0 L L.ncol k) := by
  unfold HamiltonFilter_delta0
  rw [HF0_foldl K P P0 L h hL]

/-- With one regime and `P = [1]`, the forward vector is `exp` of the running sum of
the log-densities. -/
theorem forwardVec_one (hP : P.val 0 0 = 1) (hP0 : P0 = [1]) (n : Nat) :
    forwardVec Real.exp 1 P P0 L n 0 = Real.exp (∑ t ∈ range n, L.val 0 t) := by
  induction n with
  | zero => simp [forwardVec, hP0]
  | succ n ih =>
    rw [forwardVec_succ, sum_range_one, ih, hP, mul_one, sum_range_succ, Real.exp_add]

end Unshifted

end FilterLemmas

section ExampleLemmas

theorem exLoaded_P_val (i j : Nat) :
    (exLoaded ℝ Real.log).P.val i j
      = if i = 0 then (if j = 0 then 3 / 10 else if j = 1 then 7 / 10 else 0)
        else if i = 1 then (if j = 0 then 2 / 5 else if j = 1 then 3 / 5 else 0)
        else 0 := by
  have h := (loadparam_loop_P (exEngine ℝ Real.log) (exTheta ℝ) (exEngine ℝ Real.log).specs 0
    (NumericMatrix.zero 2 2)).2.2 i j
  have e0 : extract_P_it (exEngine ℝ Real.log) (exTheta ℝ) 0 = [3 / 10, 7 / 10] := by
    norm_num [extract_P_it, exEngine, MSgarch.new, MSgarch.new_loop, exTheta, vecRange, exBase]
  have e1 : extract_P_it (exEngine ℝ Real.log) (exTheta ℝ) 1 = [2 / 5, 3 / 5] := by
    norm_num [extract_P_it, exEngine, MSgarch.new, MSgarch.new_loop, exTheta, vecRange, exBase]
  have hl : (exEngine ℝ Real.log).specs.length = 2 := rfl
  show (loadparam_loop (exEngine ℝ Real.log) (exTheta ℝ) (exEngine ℝ Real.log).specs 0
    (NumericMatrix.zero 2 2)).2.val i j = _
  rw [h, hl]
  by_cases hi0 : i = 0
  · subst hi0
    rw [e0]
    rcases j with _ | _ | j <;> simp
  · by_cases hi1 : i = 1
    · subst hi1
      rw [e1]
      rcases j with _ | _ | j <;> simp
    · rw [if_neg (by omega), if_neg hi0, if_neg hi1]
      rfl

theorem exLoaded_chain :
    StochasticChain 2 (exLoaded ℝ Real.log).P (exLoaded ℝ Real.log).P0 where
  nrow := rfl
  P_nonneg := by
    intro i j hi hj
    rw [exLoaded_P_val]
    interval_cases i <;> interval_cases j <;> norm_num
  P_row := by
    intro i hi
    simp only [Finset.sum_range_succ, Finset.sum_range_zero, exLoaded_P_val]
    interval_cases i <;> norm_num
  P0_len := rfl
  P0_nonneg := by
    intro k hk
    have : (exLoaded ℝ Real.log).P0 = [1 / 2, 1 / 2] := by
      norm_num [exLoaded, prep_ineq_vol, loadparam, exEngine, MSgarch.new, List.replicate]
    rw [this]
    interval_cases k <;> norm_num
  P0_sum := by
    have : (exLoaded ℝ Real.log).P0 = [1 / 2, 1 / 2] := by
      norm_num [exLoaded, prep_ineq_vol, loadparam, exEngine, MSgarch.new, List.replicate]
    rw [this]
    norm_num

end ExampleLemmas

/-! ## Claims on the parameter layout -/

section LayoutClaims

variable {σ V : Type}

/-- C1: for every `K ≥ 1` and every `theta` of the declared length, after
`loadparam(theta)` the matrix `P` is `K x K` and every row `k` sums to exactly `1`:
its first `K - 1` entries are the free entries `theta[Tot + k (K-1) + i]` of row `k`,
and its last entry is `1` minus their sum. -/
theorem loadparam_rows_sum_one (M : MSgarch σ V ℝ) (theta : List ℝ) (k : Nat)
    (hK : 1 ≤ M.K) (hspecs : M.specs.length = M.K) (hk : k < M.K)
    (hlen : theta.length = M.NbParams.sum + M.K * (M.K - 1)) :
    (loadparam M theta).P.nrow = M.K ∧ (loadparam M theta).P.ncol = M.K ∧
    ((loadparam M theta).P.row k).sum = 1 ∧
    (∀ i, i < M.K - 1 →
      M.NbParams.sum + k * (M.K - 1) + i < theta.length ∧
      some ((loadparam M theta).P.val k i) = theta[M.NbParams.sum + k * (M.K - 1) + i]?) ∧
    (loadparam M theta).P.val k (M.K - 1)
      = 1 - ∑ i ∈ Finset.range (M.K - 1), theta.getD (M.NbParams.sum + k * (M.K - 1) + i) 0 := by
  obtain ⟨h1, h2, h3⟩ := loadparam_loop_P M theta M.specs 0 (NumericMatrix.zero M.K M.K)
  have hrow := loadparam_P_row M theta k hK hspecs hk hlen
  have hv : ∀ j, (loadparam M theta).P.val k j = (extract_P_it M theta k).getD j 0 := by
    intro j
    have := h3 k j
    simp only [loadparam]
    rw [this, if_pos ⟨Nat.zero_le _, by omega⟩]
  have hb := P_slice_bound M.K M.NbParams.sum k theta.length hk hlen
  have hsl := P_slice_length M theta k hk hlen
  refine ⟨by simpa [loadparam, NumericMatrix.zero] using h1,
    by simpa [loadparam, NumericMatrix.zero] using h2, ?_, ?_, ?_⟩
  · rw [hrow, extract_P_it_eq, List.sum_append]
    simp
  · intro i hi
    have hlt : M.NbParams.sum + k * (M.K - 1) + i < M.NbParams.sum + (k + 1) * (M.K - 1) := by
      rw [Nat.add_mul]; omega
    refine ⟨by omega, ?_⟩
    rw [hv, extract_P_it_eq, List.getD_eq_getElem?_getD,
      List.getElem?_append_left (by rw [hsl]; exact hi), vecRange_getElem? _ _ _ _ hlt,
      List.getElem?_eq_getElem (by omega)]
    simp
  · rw [hv, extract_P_it_eq, List.getD_eq_getElem?_getD,
      List.getElem?_append_right (by rw [hsl]), hsl]
    simp only [Nat.sub_self, List.getElem?_cons_zero, Option.getD_some]
    congr 1
    rw [← sum_map_range_eq_finset]
    congr 1
    apply List.ext_getElem?
    intro i
    rw [List.getElem?_map]
    by_cases hi : i < M.K - 1
    · have hlt : M.NbParams.sum + k * (M.K - 1) + i < M.NbParams.sum + (k + 1) * (M.K - 1) := by
        rw [Nat.add_mul]; omega
      rw [vecRange_getElem? _ _ _ _ hlt, List.getElem?_range hi,
        List.getElem?_eq_getElem (by omega)]
      simp [List.getD_eq_getElem?_getD, List.getElem?_eq_getElem (show
        M.NbParams.sum + k * (M.K - 1) + i < theta.length by omega)]
    · rw [List.getElem?_eq_none (by rw [hsl]; omega),
        List.getElem?_eq_none (by simp; omega)]
      rfl

/-- Witness of C1 on the two-regime engine `exEngine` and the vector `exTheta`. -/
theorem loadparam_rows_sum_one_witness :
    ((loadparam (exEngine ℝ Real.log) (exTheta ℝ)).P.row 1).sum = 1 :=
  (loadparam_rows_sum_one (exEngine ℝ Real.log) (exTheta ℝ) 1
    (by decide) (by rfl) (by decide) (by rfl)).2.2.1

/-- C2: for every regime index `k < K` and every `theta` of the declared length, the
slice `extract_theta_it(theta, k)` has length `NbParams[k]` and its `i`-th entry is
`theta[offset_k + i]`, where `offset_k` is the sum of `NbParams[0..k-1]`. -/
theorem extract_theta_it_slice {α : Type} (M : MSgarch σ V α) (theta : List α) (k : Nat)
    (hNb : M.NbParams.length = M.K) (hk : k < M.K)
    (hlen : theta.length = M.NbParams.sum + M.K * (M.K - 1)) :
    (extract_theta_it M theta k).length = M.NbParams.getD k 0 ∧
    ∀ i, i < M.NbParams.getD k 0 →
      (M.NbParams.take k).sum + i < theta.length ∧
      (extract_theta_it M theta k)[i]? = theta[(M.NbParams.take k).sum + i]? := by
  have hle := sum_take_succ_le M.NbParams k (by omega)
  unfold extract_theta_it
  simp only [MyCumsum_eq_sum_take]
  refine ⟨?_, ?_⟩
  · rw [vecRange_length _ _ _ (by omega)]
    omega
  · intro i hi
    exact ⟨by omega, vecRange_getElem? _ _ _ _ (by omega)⟩

/-- Witness of C2 on the two-regime engine `exEngine` and the vector `exTheta`. -/
theorem extract_theta_it_slice_witness :
    (extract_theta_it (exEngine ℚ (fun _ => 0)) (exTheta ℚ) 1).length = 1 :=
  (extract_theta_it_slice (exEngine ℚ (fun _ => 0)) (exTheta ℚ) 1
    (by decide) (by decide) (by decide)).1

/-- C3: the flat layout is a partition of `theta`: for `theta` of length
`sum(NbParams) + K (K-1)`, the model slices `extract_theta_it(theta, k)`, `k = 0..K-1`,
followed by the first `K - 1` entries of `extract_P_it(theta, k)`, `k = 0..K-1`,
concatenate to `theta` itself. -/
theorem layout_partition (M : MSgarch σ V ℝ) (theta : List ℝ)
    (hNb : M.NbParams.length = M.K)
    (hlen : theta.length = M.NbParams.sum + M.K * (M.K - 1)) :
    ((List.range M.K).map (fun k => extract_theta_it M theta k)).flatten
      ++ ((List.range M.K).map (fun k => (extract_P_it M theta k).take (M.K - 1))).flatten
      = theta := by
  have h1 : (List.range M.K).map (fun k => extract_theta_it M theta k)
      = (List.range M.K).map (fun k => vecRange theta ((M.NbParams.take k).sum)
          ((M.NbParams.take (k + 1)).sum)) := by
    apply List.map_congr_left
    intro k hk
    have hk2 : k < M.NbParams.length := by
      rw [hNb]; exact List.mem_range.mp hk
    simp only [extract_theta_it, MyCumsum_eq_sum_take]
    rw [List.sum_take_succ _ _ hk2, List.getD_eq_getElem _ _ hk2]
  have h2 : (List.range M.K).map (fun k => (extract_P_it M theta k).take (M.K - 1))
      = (List.range M.K).map (fun k => vecRange theta (M.NbParams.sum + k * (M.K - 1))
          (M.NbParams.sum + (k + 1) * (M.K - 1))) := by
    apply List.map_congr_left
    intro k hk
    rw [extract_P_it_eq]
    exact List.take_left' (P_slice_length M theta k (List.mem_range.mp hk) hlen)
  rw [h1, h2, flatten_vecRange theta (fun k => (M.NbParams.take k).sum),
    flatten_vecRange theta (fun k => M.NbParams.sum + k * (M.K - 1))]
  · have e : (M.NbParams.take M.K).sum = M.NbParams.sum := by
      rw [List.take_of_length_le (by omega)]
    simp only [List.take_zero, List.sum_nil, Nat.zero_mul, Nat.add_zero, e]
    rw [vecRange_append _ _ _ _ (Nat.zero_le _) (Nat.le_add_right _ _)]
    unfold vecRange
    rw [List.drop_zero, List.take_of_length_le (by omega)]
  · intro k
    rw [Nat.add_mul]
    omega
  · intro k
    rw [List.take_succ, List.sum_append]
    omega

/-- Witness of C3 on the two-regime engine `exEngine` and the vector `exTheta`. -/
theorem layout_partition_witness :
    ((List.range 2).map (fun k => extract_theta_it (exEngine ℝ Real.log) (exTheta ℝ) k)).flatten
      ++ ((List.range 2).map
          (fun k => (extract_P_it (exEngine ℝ Real.log) (exTheta ℝ) k).take (2 - 1))).flatten
      = exTheta ℝ :=
  layout_partition (exEngine ℝ Real.log) (exTheta ℝ) (by rfl) (by rfl)

end LayoutClaims

/-! ## Claims on the Hamilton filter -/

section FilterClaims

variable {σ V : Type}

/-- C4: the stabilisation shift has no effect on the result.  For every row-stochastic
non-negative `P`, probability vector `P0` and log-density matrix with `K` rows and at
least one column, the log-likelihood returned by `HamiltonFilter` is the same for every
value of `LND_MIN`: it is the value of the recursion run with `delta = 0` at every step. -/
theorem HamiltonFilter_shift_invariant (M : MSgarch σ V ℝ) (L : NumericMatrix ℝ)
    (h : StochasticChain M.K M.P M.P0) (hL : L.nrow = M.K) (hn : 1 ≤ L.ncol) (lmin : ℝ) :
    (HamiltonFilter Real.exp Real.log { M with LND_MIN := lmin } L).1
      = HamiltonFilter_delta0 Real.exp Real.log M.P M.P0 L := by
  rw [HamiltonFilter_delta0_eq M.K M.P M.P0 L h hL]
  exact HamiltonFilter_lnd M.K L { M with LND_MIN := lmin } h hL hn

/-- Witness of C4: the engine `exLoaded` and the log-density matrix `exL`, with the
floor moved to `5`. -/
theorem HamiltonFilter_shift_invariant_witness :
    (HamiltonFilter Real.exp Real.log { exLoaded ℝ Real.log with LND_MIN := 5 }
        (exL ℝ Real.log)).1
      = HamiltonFilter_delta0 Real.exp Real.log (exLoaded ℝ Real.log).P
          (exLoaded ℝ Real.log).P0 (exL ℝ Real.log) :=
  HamiltonFilter_shift_invariant (exLoaded ℝ Real.log) (exL ℝ Real.log) exLoaded_chain
    rfl (by decide) 5

/-- C5: the log-likelihood returned by `HamiltonFilter` is the marginal log-likelihood
of the hidden Markov chain.  For every row-stochastic non-negative `P`, probability
vector `P0` and `K x n` log-density matrix `L` with `n ≥ 1`, `exp (HamiltonFilter L)` is
the sum over all regime sequences `s_0, ..., s_n` of
`P0[s_0] * prod_{t=1..n} P(s_{t-1}, s_t) * exp (L(s_t, t-1))`. -/
theorem HamiltonFilter_marginal_likelihood (M : MSgarch σ V ℝ) (L : NumericMatrix ℝ)
    (h : StochasticChain M.K M.P M.P0) (hL : L.nrow = M.K) (hn : 1 ≤ L.ncol) :
    Real.exp (HamiltonFilter Real.exp Real.log M L).1
      = ∑ s : Fin (L.ncol + 1) → Fin M.K,
          M.P0.getD (s 0) 0
            * ∏ t : Fin L.ncol,
                (M.P.val (s t.castSucc) (s t.succ) * Real.exp (L.val (s t.succ) t)) := by
  rw [HamiltonFilter_lnd M.K L M h hL hn,
    Real.exp_log (forwardVec_sum_pos M.K M.P M.P0 L h L.ncol),
    forwardVec_sum_eq_paths]
  rfl

/-- Witness of C5 on the engine `exLoaded` and the log-density matrix `exL`. -/
theorem HamiltonFilter_marginal_likelihood_witness :
    Real.exp (HamiltonFilter Real.exp Real.log (exLoaded ℝ Real.log) (exL ℝ Real.log)).1
      = ∑ s : Fin (3 + 1) → Fin 2,
          (exLoaded ℝ Real.log).P0.getD (s 0) 0
            * ∏ t : Fin 3,
                ((exLoaded ℝ Real.log).P.val (s t.castSucc) (s t.succ)
                  * Real.exp ((exL ℝ Real.log).val (s t.succ) t)) :=
  HamiltonFilter_marginal_likelihood (exLoaded ℝ Real.log) (exL ℝ Real.log) exLoaded_chain
    rfl (by decide)

/-- C6: for `K = 1` (`P = [1]`, `P0 = [1]`) and every `1 x n` log-density matrix with
`n ≥ 1`, `HamiltonFilter` returns exactly the sum of the `n` log-density entries. -/
theorem HamiltonFilter_one_regime (M : MSgarch σ V ℝ) (L : NumericMatrix ℝ)
    (hrow : M.P.nrow = 1) (hP : M.P.val 0 0 = 1)
    (hP0 : M.P0 = [1]) (hL : L.nrow = 1) (hn : 1 ≤ L.ncol) :
    (HamiltonFilter Real.exp Real.log M L).1 = ∑ t ∈ Finset.range L.ncol, L.val 0 t := by
  have h : StochasticChain 1 M.P M.P0 :=
    { nrow := hrow
      P_nonneg := by
        intro i j hi hj
        obtain rfl : i = 0 := by omega
        obtain rfl : j = 0 := by omega
        rw [hP]
        exact zero_le_one
      P_row := by
        intro i hi
        obtain rfl : i = 0 := by omega
        rw [Finset.sum_range_one, hP]
      P0_len := by rw [hP0]; rfl
      P0_nonneg := by
        intro k hk
        obtain rfl : k = 0 := by omega
        rw [hP0]
        exact zero_le_one
      P0_sum := by rw [hP0]; simp }
  rw [HamiltonFilter_lnd 1 L M h hL hn, Finset.sum_range_one,
    forwardVec_one M.P M.P0 L hP hP0, Real.log_exp]

/-- Witness of C6 on the one-regime engine `ex1Loaded` and its log-density matrix. -/
theorem HamiltonFilter_one_regime_witness :
    (HamiltonFilter Real.exp Real.log (ex1Loaded ℝ Real.log) (ex1L ℝ Real.log)).1
      = ∑ t ∈ Finset.range 3, (ex1L ℝ Real.log).val 0 t :=
  HamiltonFilter_one_regime (ex1Loaded ℝ Real.log) (ex1L ℝ Real.log) rfl
    (by norm_num [ex1Loaded, prep_ineq_vol, loadparam, loadparam_loop, NumericMatrix.setRow,
      extract_P_it, vecRange, MSgarch.new, MSgarch.new_loop, exBase])
    (by norm_num [ex1Loaded, prep_ineq_vol, loadparam, MSgarch.new, List.replicate])
    rfl (by decide)

/-- C7, evaluated: on the two-regime engine `exLoaded` (uniform `P0`, transition rows
`(3/10, 7/10)` and `(2/5, 3/5)`) and the one-column log-density matrix of the series
`0, 0`, `HamiltonFilter` leaves `PLast = P0 * P = (7/20, 13/20)`, computed from the
`Pspot` of before the last column, while `HamiltonFilter_2` renormalises first and
leaves `(73/200, 127/200)`. -/
theorem HamiltonFilter_PLast_lags :
    (HamiltonFilter Real.exp Real.log (exLoaded ℝ Real.log) (exL0 ℝ Real.log)).2.PLast
      = [7 / 20, 13 / 20] ∧
    (HamiltonFilter_2 Real.exp Real.log (exLoaded ℝ Real.log) (exL0 ℝ Real.log)).2.PLast
      = [73 / 200, 127 / 200] := by
  have hP0 : (exLoaded ℝ Real.log).P0 = (List.range 2).map (fun k => if k = 0 then 1 / 2 else 1 / 2) := by
    norm_num [exLoaded, prep_ineq_vol, loadparam, exEngine, MSgarch.new, List.replicate,
      List.range_succ]
  have hn : (exL0 ℝ Real.log).ncol = 1 := rfl
  have hr : (exL0 ℝ Real.log).nrow = 2 := rfl
  have hPr : (exLoaded ℝ Real.log).P.nrow = 2 := rfl
  constructor
  · unfold HamiltonFilter
    simp only [hn, Nat.sub_self, List.range'_zero, List.foldl_nil, HF_predict]
    rw [hP0, matrixProd_map_range 2 _ _ hPr]
    norm_num [List.range_succ, Finset.sum_range_succ, exLoaded_P_val]
  · unfold HamiltonFilter_2
    simp only [hn, Nat.sub_self, List.range'_zero, List.foldl_nil]
    rw [hP0, HF_predict_tmp _ _ 2 hPr hr]
    generalize (HF_predict Real.exp (exLoaded ℝ Real.log) (exL0 ℝ Real.log) 0
      (List.map (fun k => if k = 0 then (1:ℝ) / 2 else 1 / 2) (List.range 2)) 0).delta = δ
    have hL0 : (exL0 ℝ Real.log).val 0 0 = 0 := by
      simp [exL0, calc_lndMat, NumericMatrix.setCol, NumericMatrix.zero, calc_kernel,
        increment_vol, set_vol, prep_kernel, exLoaded, prep_ineq_vol, exBase, List.range',
        loadparam, loadparam_loop, exEngine, MSgarch.new]
    have hL1 : (exL0 ℝ Real.log).val 1 0 = 0 := by
      simp [exL0, calc_lndMat, NumericMatrix.setCol, NumericMatrix.zero, calc_kernel,
        increment_vol, set_vol, prep_kernel, exLoaded, prep_ineq_vol, exBase, List.range',
        loadparam, loadparam_loop, exEngine, MSgarch.new]
    have he := Real.exp_pos δ
    norm_num [List.range_succ, Finset.sum_range_succ, exLoaded_P_val, hL0, hL1, matrixProd,
      vecMul, NumericMatrix.col, hPr]
    have hd : 7 / 20 * Real.exp δ + 13 / 20 * Real.exp δ = Real.exp δ := by ring
    rw [hd]
    constructor <;> field_simp <;> ring

end FilterClaims

/-! ## Prior and evaluation: lemmas -/

section PriorLemmas

variable {σ V α : Type} [LinearOrderedField α]

theorem calc_prior_loop_false (dnorm : α → α → α → α) (M : MSgarch σ V α) (theta : List α)
    (specs : List (Spec σ V α)) (k0 : Nat) (r2 : α) :
    (calc_prior_loop dnorm M theta specs k0 false r2).1 = false := by
  induction specs generalizing k0 r2 with
  | nil => rfl
  | cons it rest ih =>
    simp only [calc_prior_loop, Bool.false_and]
    exact ih _ _

/-- A transition entry outside `(0, 1)` in the slice of any model of the list makes the
joint flag false. -/
theorem calc_prior_loop_bad (dnorm : α → α → α → α) (M : MSgarch σ V α) (theta : List α)
    (specs : List (Spec σ V α)) (k0 : Nat) (r1 : Bool) (r2 : α) (i : Nat)
    (hi : i < specs.length) (p : α) (hp : p ∈ extract_P_it M theta (k0 + i))
    (hbad : ¬ (0 < p ∧ p < 1)) :
    (calc_prior_loop dnorm M theta specs k0 r1 r2).1 = false := by
  induction specs generalizing k0 r1 r2 i with
  | nil => simp at hi
  | cons it rest ih =>
    simp only [calc_prior_loop]
    cases i with
    | zero =>
      have hall : (extract_P_it M theta k0).all (fun p => decide (0 < p) && decide (p < 1))
          = false := by
        rw [List.all_eq_false]
        refine ⟨p, by simpa using hp, ?_⟩
        simpa using hbad
      rw [hall, Bool.and_false]
      exact calc_prior_loop_false dnorm M theta rest _ _
    | succ i =>
      apply ih (k0 + 1) _ _ i (by simpa using hi)
      rw [Nat.add_assoc, Nat.add_comm 1 i]
      exact hp

theorem calc_prior_r1_false (dnorm : α → α → α → α) (M : MSgarch σ V α) (theta : List α)
    (k : Nat) (p : α) (hspecs : M.specs.length = M.K) (hk : k < M.K)
    (hp : p ∈ extract_P_it M theta k) (hbad : ¬ (0 < p ∧ p < 1)) :
    (calc_prior dnorm M theta).r1 = false :=
  calc_prior_loop_bad dnorm M theta M.specs 0 true 0 k (by omega) p (by simpa using hp) hbad

end PriorLemmas

section EvalLemmas

variable {σ V : Type}

theorem eval_model_loop_succ (exp log : ℝ → ℝ) (dnorm : ℝ → ℝ → ℝ → ℝ) (M : MSgarch σ V ℝ)
    (all_thetas : NumericMatrix ℝ) (y : List ℝ) (n : Nat) :
    eval_model_loop exp log dnorm M all_thetas y (n + 1)
      = (((eval_model_loop exp log dnorm M all_thetas y n).1.set n
            (eval_row exp log dnorm (eval_model_loop exp log dnorm M all_thetas y n).2
              (all_thetas.row n) y).1),
          (eval_row exp log dnorm (eval_model_loop exp log dnorm M all_thetas y n).2
              (all_thetas.row n) y).2) := by
  unfold eval_model_loop
  rw [List.range_succ, List.foldl_append]
  rfl

theorem eval_model_loop_length (exp log : ℝ → ℝ) (dnorm : ℝ → ℝ → ℝ → ℝ) (M : MSgarch σ V ℝ)
    (all_thetas : NumericMatrix ℝ) (y : List ℝ) (n : Nat) :
    (eval_model_loop exp log dnorm M all_thetas y n).1.length = all_thetas.nrow := by
  induction n with
  | zero => simp [eval_model_loop]
  | succ n ih => rw [eval_model_loop_succ, List.length_set, ih]

/-- Entry `j` of `lnd` is written by iteration `j` and by no later one. -/
theorem eval_model_loop_getElem (exp log : ℝ → ℝ) (dnorm : ℝ → ℝ → ℝ → ℝ)
    (M : MSgarch σ V ℝ) (all_thetas : NumericMatrix ℝ) (y : List ℝ) (j : Nat)
    (hj : j < all_thetas.nrow) (m : Nat) :
    (eval_model_loop exp log dnorm M all_thetas y (j + 1 + m)).1[j]?
      = some (eval_row exp log dnorm (eval_model_loop exp log dnorm M all_thetas y j).2
          (all_thetas.row j) y).1 := by
  induction m with
  | zero =>
    rw [Nat.add_zero, eval_model_loop_succ]
    simp only []
    exact List.getElem?_set_self (by rw [eval_model_loop_length]; exact hj)
  | succ m ih =>
    rw [← Nat.add_assoc, eval_model_loop_succ]
    simp only []
    rw [List.getElem?_set_ne (by omega), ih]

end EvalLemmas

/-! ## Claims on the prior and on model evaluation -/

section PriorClaims

variable {σ V : Type}

/-- C8: for every `theta` in which some transition-probability entry of some row `k`
(a free entry or the derived last entry, i.e. any entry of `extract_P_it(theta, k)`) is
not strictly between `0` and `1`, `calc_prior` returns `(infeasible, -1e10)`, whatever
the regime models' own priors return. -/
theorem calc_prior_infeasible (dnorm : ℝ → ℝ → ℝ → ℝ) (M : MSgarch σ V ℝ) (theta : List ℝ)
    (k : Nat) (p : ℝ) (hspecs : M.specs.length = M.K) (hk : k < M.K)
    (hp : p ∈ extract_P_it M theta k) (hbad : ¬ (0 < p ∧ p < 1)) :
    calc_prior dnorm M theta = { r1 := false, r2 := -(10 ^ 10) } := by
  have h := calc_prior_loop_bad dnorm M theta M.specs 0 true 0 k (by omega) p
    (by simpa using hp) hbad
  unfold calc_prior
  simp only [h]
  rfl

/-- Witness of C8: on `exEngine`, the vector `exThetaBad` has the entry `3/2` in row `0`. -/
theorem calc_prior_infeasible_witness :
    calc_prior (dnorm_log Real.log (Real.log (Real.sqrt (2 * Real.pi))))
        (exEngine ℝ Real.log) (exThetaBad ℝ)
      = { r1 := false, r2 := -(10 ^ 10) } :=
  calc_prior_infeasible _ (exEngine ℝ Real.log) (exThetaBad ℝ) 0 (3 / 2) rfl (by decide)
    (by norm_num [extract_P_it, exEngine, MSgarch.new, MSgarch.new_loop, exThetaBad, vecRange,
      exBase])
    (by norm_num)

/-- C9, evaluated: on the two-regime engine `exLoaded` (`K = 2`, both model priors
`(true, 0)`) and the feasible vector `exTheta` (transition rows `(3/10, 7/10)` and
`(2/5, 3/5)`), the prior mean set by the constructor is `1/K` in integer division,
that is `0`, and the log-density returned by `calc_prior` is the sum of the Normal
log-densities with mean `0`: it is `1/200` below the sum, over the model priors and the
four transition entries, of the Normal log-densities with mean `1/2` and standard
deviation `10`. -/
theorem calc_prior_mean_integer_division :
    (exLoaded ℝ Real.log).P_mean = 0 ∧
    calc_prior (dnorm_log Real.log (Real.log (Real.sqrt (2 * Real.pi))))
        (exLoaded ℝ Real.log) (exTheta ℝ)
      = { r1 := true,
          r2 := (0 + 0)
            + (dnorm_log Real.log (Real.log (Real.sqrt (2 * Real.pi))) (3 / 10) (1 / 2) 10
              + dnorm_log Real.log (Real.log (Real.sqrt (2 * Real.pi))) (7 / 10) (1 / 2) 10
              + dnorm_log Real.log (Real.log (Real.sqrt (2 * Real.pi))) (2 / 5) (1 / 2) 10
              + dnorm_log Real.log (Real.log (Real.sqrt (2 * Real.pi))) (3 / 5) (1 / 2) 10)
            - 1 / 200 } := by
  have hm : (exLoaded ℝ Real.log).P_mean = 0 := by
    norm_num [exLoaded, prep_ineq_vol, loadparam, exEngine, MSgarch.new]
  have hsd : (exLoaded ℝ Real.log).P_sd = 10 := by
    norm_num [exLoaded, prep_ineq_vol, loadparam, exEngine, MSgarch.new]
  have e0 : extract_P_it (exLoaded ℝ Real.log) (exTheta ℝ) 0 = [3 / 10, 7 / 10] := by
    norm_num [extract_P_it, exLoaded, prep_ineq_vol, loadparam, exEngine, MSgarch.new,
      MSgarch.new_loop, exTheta, vecRange, exBase]
  have e1 : extract_P_it (exLoaded ℝ Real.log) (exTheta ℝ) 1 = [2 / 5, 3 / 5] := by
    norm_num [extract_P_it, exLoaded, prep_ineq_vol, loadparam, exEngine, MSgarch.new,
      MSgarch.new_loop, exTheta, vecRange, exBase]
  have hs : (exLoaded ℝ Real.log).specs
      = [⟨exBase ℝ, extract_theta_it (exEngine ℝ Real.log) (exTheta ℝ) 0⟩,
         ⟨exBase ℝ, extract_theta_it (exEngine ℝ Real.log) (exTheta ℝ) 1⟩] := rfl
  refine ⟨hm, ?_⟩
  unfold calc_prior
  rw [hs]
  simp only [calc_prior_loop, e0, e1, hm, hsd]
  norm_num [exBase, dnorm_log]
  ring

/-- C10: for every batch of parameter vectors and every series `y` with at least two
observations, entry `j` of the result of `eval_model` is `-1e10` when `calc_prior` of
row `j` is infeasible, the engine being left as it is after loading row `j` (the filter
is not run); otherwise it is `calc_prior(row j).r2` plus the value of `HamiltonFilter`
on the log-density matrix computed from `y` with row `j` loaded. -/
theorem eval_model_entry (dnorm : ℝ → ℝ → ℝ → ℝ) (M : MSgarch σ V ℝ)
    (all_thetas : NumericMatrix ℝ) (y : List ℝ) (j : Nat)
    (hj : j < all_thetas.nrow) (_hy : 2 ≤ y.length) :
    ((calc_prior dnorm (eval_model_loaded Real.exp Real.log dnorm M all_thetas y j)
          (all_thetas.row j)).r1 = false →
      (eval_model Real.exp Real.log dnorm M all_thetas y).1[j]? = some (-(10 ^ 10) : ℝ) ∧
      (eval_model_loop Real.exp Real.log dnorm M all_thetas y (j + 1)).2
        = eval_model_loaded Real.exp Real.log dnorm M all_thetas y j) ∧
    ((calc_prior dnorm (eval_model_loaded Real.exp Real.log dnorm M all_thetas y j)
          (all_thetas.row j)).r1 = true →
      (eval_model Real.exp Real.log dnorm M all_thetas y).1[j]?
        = some ((calc_prior dnorm (eval_model_loaded Real.exp Real.log dnorm M all_thetas y j)
              (all_thetas.row j)).r2
          + (HamiltonFilter Real.exp Real.log
              (calc_lndMat (eval_model_loaded Real.exp Real.log dnorm M all_thetas y j) y).2
              (calc_lndMat (eval_model_loaded Real.exp Real.log dnorm M all_thetas y j) y).1).1)) := by
  have hget := eval_model_loop_getElem Real.exp Real.log dnorm M all_thetas y j hj
    (all_thetas.nrow - (j + 1))
  rw [show j + 1 + (all_thetas.nrow - (j + 1)) = all_thetas.nrow by omega] at hget
  have hsucc := eval_model_loop_succ Real.exp Real.log dnorm M all_thetas y j
  unfold eval_model_loaded
  constructor
  · intro hr1
    constructor
    · unfold eval_model
      rw [hget]
      unfold eval_row
      simp only [hr1, Bool.false_eq_true, if_false]
      simp [calc_prior] at hr1 ⊢
      simp [hr1]
    · rw [hsucc]
      unfold eval_row
      simp only [hr1, Bool.false_eq_true, if_false]
  · intro hr1
    unfold eval_model
    rw [hget]
    unfold eval_row
    simp only [hr1, if_true, zero_add]

/-- Witness of C10: row `0` of the batch `exThetas` is the infeasible `exThetaBad`, and
entry `0` of the result is `-1e10`. -/
theorem eval_model_entry_witness :
    (eval_model Real.exp Real.log (dnorm_log Real.log (Real.log (Real.sqrt (2 * Real.pi))))
        (exEngine ℝ Real.log) (exThetas ℝ) (exY ℝ)).1[0]? = some (-(10 ^ 10) : ℝ) :=
  ((eval_model_entry (dnorm_log Real.log (Real.log (Real.sqrt (2 * Real.pi))))
      (exEngine ℝ Real.log) (exThetas ℝ) (exY ℝ) 0 (by decide) (by decide)).1
    (calc_prior_r1_false
        (dnorm_log Real.log (Real.log (Real.sqrt (2 * Real.pi))))
        (eval_model_loaded Real.exp Real.log
            (dnorm_log Real.log (Real.log (Real.sqrt (2 * Real.pi))))
            (exEngine ℝ Real.log) (exThetas ℝ) (exY ℝ) 0)
        ((exThetas ℝ).row 0) 0 (3 / 2) rfl (by decide)
        (by norm_num [extract_P_it, eval_model_loaded, eval_model_loop, prep_ineq_vol, loadparam,
          exEngine, MSgarch.new, MSgarch.new_loop, exThetas, exThetaBad, vecRange, exBase,
          NumericMatrix.row, List.range_succ])
        (by norm_num))).1

end PriorClaims

/-! ## Sampling and simulation: lemmas -/

section SampleLemmas

variable {α : Type} [LinearOrderedField α]

/-- The loop of `sampleState`, started at `ct` with `cumP` the sum of the first `ct`
entries and every earlier cumulative sum below `u`, returns the first index whose
cumulative sum reaches `u`, or the last index. -/
theorem sampleState_loop_spec (P : List α) (u : α) (d : Nat) :
    ∀ (ct : Nat) (cumP : α), P.length - ct = d → 1 ≤ ct → ct ≤ P.length →
      cumP = (P.take ct).sum → (∀ j, j + 1 < ct → (P.take (j + 1)).sum < u) →
      ∃ i, sampleState_loop P u (P.length - 1) cumP ct = some i ∧ i < P.length ∧
        (∀ j, j < i → (P.take (j + 1)).sum < u) ∧
        (u ≤ (P.take (i + 1)).sum ∨ i = P.length - 1) := by
  induction d with
  | zero =>
    intro ct cumP hd h1 hle hcum hinv
    have hct : ct = P.length := by omega
    rw [sampleState_loop, dif_neg (by omega)]
    refine ⟨ct - 1, rfl, by omega, ?_, Or.inr (by omega)⟩
    intro j hj
    exact hinv j (by omega)
  | succ d ih =>
    intro ct cumP hd h1 hle hcum hinv
    have hlt : ct < P.length := by omega
    rw [sampleState_loop]
    by_cases hc : u > cumP ∧ ct ≤ P.length - 1
    · rw [dif_pos hc, List.getElem?_eq_getElem hlt]
      simp only []
      apply ih (ct + 1) (cumP + P[ct]) (by omega) (by omega) (by omega)
      · rw [List.sum_take_succ P ct hlt, hcum]
      · intro j hj
        by_cases hj2 : j + 1 < ct
        · exact hinv j hj2
        · have : j + 1 = ct := by omega
          rw [this, ← hcum]
          exact hc.1
    · rw [dif_neg hc]
      refine ⟨ct - 1, rfl, by omega, ?_, Or.inl ?_⟩
      · intro j hj
        exact hinv j (by omega)
      · have hu : ¬ u > cumP := fun h => hc ⟨h, by omega⟩
        rw [Nat.sub_add_cancel h1, ← hcum]
        exact not_lt.mp hu

theorem sampleState_spec (P : List α) (u : α) (hP : P ≠ []) :
    ∃ i, sampleState P u = some i ∧ i < P.length ∧
      (∀ j, j < i → (P.take (j + 1)).sum < u) ∧
      (u ≤ (P.take (i + 1)).sum ∨ i = P.length - 1) := by
  have hlen : 0 < P.length := List.length_pos.mpr hP
  unfold sampleState
  rw [List.getElem?_eq_getElem hlen]
  simp only []
  apply sampleState_loop_spec P u (P.length - 1) 1 P[0] rfl (le_refl 1) hlen
  · rw [List.sum_take_succ P 0 hlen]
    simp
  · intro j hj
    omega

end SampleLemmas

section SimLemmas

variable {σ V : Type}

theorem increment_vol_length (M : MSgarch σ V ℝ) (vol : List V) (yim1 : ℝ) (K : Nat)
    (hs : M.specs.length = K) (hv : vol.length = K) :
    (increment_vol M vol yim1).length = K := by
  unfold increment_vol
  rw [List.length_zipWith, hs, hv, Nat.min_self]

theorem vol_h_at_some (M : MSgarch σ V ℝ) (vol : List V) (k K : Nat)
    (hs : M.specs.length = K) (hv : vol.length = K) (hk : k < K) :
    ∃ h, vol_h_at M vol k = some h := by
  unfold vol_h_at
  rw [List.getElem?_eq_getElem (by omega : k < M.specs.length),
    List.getElem?_eq_getElem (by omega : k < vol.length)]
  exact ⟨_, rfl⟩

theorem rndgen_some (M : MSgarch σ V ℝ) (k K : Nat) (rng : Nat → ℝ)
    (hs : M.specs.length = K) (hk : k < K) :
    ∃ zr, rndgen M k rng = some zr := by
  unfold rndgen
  rw [List.getElem?_eq_getElem (by omega : k < M.specs.length)]
  exact ⟨_, rfl⟩

theorem getD_set_lt (l : List Nat) (t a i K : Nat) (ht : t < l.length)
    (hold : ∀ j, j < t → l.getD j 0 < K) (ha : a < K) (hi : i < t + 1) :
    (l.set t a).getD i 0 < K := by
  rw [List.getD_eq_getElem?_getD, List.getElem?_set]
  by_cases h : t = i
  · simp [h, (h ▸ ht : i < l.length), ha]
  · rw [if_neg h, ← List.getD_eq_getElem?_getD]
    exact hold i (by omega)

/-- One iteration of the loop of `f_sim` succeeds and keeps the invariant. -/
theorem f_sim_step_ok (sqrt : ℝ → ℝ) (M : MSgarch σ V ℝ) (K ntot t : Nat)
    (hK : 1 ≤ K) (hs : M.specs.length = K) (hr : M.P.nrow = K) (hc : M.P.ncol = K)
    (s : SimState V ℝ) (hinv : SimInv K ntot t s) (h1 : 1 ≤ t) (ht : t < ntot) :
    ∃ s1, f_sim_step sqrt M s t = some s1 ∧ SimInv K ntot (t + 1) s1 := by
  obtain ⟨hy, hS, hv, hlab⟩ := hinv
  obtain ⟨sprev, e1, hprev⟩ : ∃ sprev, s.S[t - 1]? = some sprev ∧ sprev < K := by
    refine ⟨s.S[t - 1]?.getD 0, ?_, ?_⟩
    · rw [List.getElem?_eq_getElem (by omega)]
      rfl
    · rw [← List.getD_eq_getElem?_getD]
      exact hlab (t - 1) (by omega)
  have e2 : M.P.row? sprev = some (M.P.row sprev) := by
    unfold NumericMatrix.row?
    rw [if_pos (by omega)]
  have hrow : M.P.row sprev ≠ [] := by
    apply List.ne_nil_of_length_pos
    simp [NumericMatrix.row, hc]
    omega
  obtain ⟨st, e3, hst, _, _⟩ := sampleState_spec (M.P.row sprev) (s.rng 0) hrow
  have hstK : st < K := by
    simpa [NumericMatrix.row, hc] using hst
  have e4 : vecSet s.S t st = some (s.S.set t st) := by
    unfold vecSet
    rw [if_pos (by omega)]
  obtain ⟨zr, e5⟩ := rndgen_some M st K (fun i => s.rng (i + 1)) hs hstK
  obtain ⟨yprev, e6⟩ : ∃ yprev, s.y[t - 1]? = some yprev :=
    ⟨_, List.getElem?_eq_getElem (by omega)⟩
  have hv1 := increment_vol_length M s.vol yprev K hs hv
  obtain ⟨h, e7⟩ := vol_h_at_some M _ st K hs hv1 hstK
  have e8 : vecSet s.y t (zr.1 * sqrt h) = some (s.y.set t (zr.1 * sqrt h)) := by
    unfold vecSet
    rw [if_pos (by omega)]
  refine ⟨{ y := s.y.set t (zr.1 * sqrt h), S := s.S.set t st,
            vol := increment_vol M s.vol yprev, rng := zr.2 }, ?_, ?_⟩
  · simp only [f_sim_step, e1, e2, e3, e4, e5, e6, e7, e8, Option.bind_eq_bind,
      Option.some_bind]
  · refine ⟨by simp [hy], by simp [hS], hv1, ?_⟩
    intro i hi
    exact getD_set_lt s.S t st i K (by omega) hlab hstK hi

theorem f_sim_loop_ok (sqrt : ℝ → ℝ) (M : MSgarch σ V ℝ) (K ntot : Nat)
    (hK : 1 ≤ K) (hs : M.specs.length = K) (hr : M.P.nrow = K) (hc : M.P.ncol = K)
    (s0 : SimState V ℝ) (hinv : SimInv K ntot 1 s0) (m : Nat) (hm : m + 1 ≤ ntot) :
    ∃ s1, (List.range' 1 m).foldlM (f_sim_step sqrt M) s0 = some s1
      ∧ SimInv K ntot (m + 1) s1 := by
  induction m with
  | zero => exact ⟨s0, rfl, hinv⟩
  | succ m ih =>
    obtain ⟨s1, e1, inv1⟩ := ih (by omega)
    obtain ⟨s2, e2, inv2⟩ := f_sim_step_ok sqrt M K ntot (m + 1) hK hs hr hc s1 inv1
      (by omega) (by omega)
    refine ⟨s2, ?_, inv2⟩
    rw [List.range'_concat, List.foldlM_append, e1]
    simp only [one_mul, Nat.add_comm 1 m]
    simpa using e2

theorem loadparam_loop_length (M : MSgarch σ V ℝ) (theta : List ℝ)
    (specs : List (Spec σ V ℝ)) (k0 : Nat) (P_mat : NumericMatrix ℝ) :
    (loadparam_loop M theta specs k0 P_mat).1.length = specs.length := by
  induction specs generalizing k0 P_mat with
  | nil => rfl
  | cons it rest ih => simp [loadparam_loop, ih]

/-- The engine after `loadparam(theta); prep_ineq_vol();`: as many models as before, a
`K x K` matrix `P`, and `P0`, `PLast`, `K` untouched. -/
theorem loaded_shape (M : MSgarch σ V ℝ) (theta : List ℝ) :
    (prep_ineq_vol (loadparam M theta)).specs.length = M.specs.length ∧
    (prep_ineq_vol (loadparam M theta)).P.nrow = M.K ∧
    (prep_ineq_vol (loadparam M theta)).P.ncol = M.K ∧
    (prep_ineq_vol (loadparam M theta)).P = (loadparam M theta).P ∧
    (prep_ineq_vol (loadparam M theta)).P0 = M.P0 ∧
    (prep_ineq_vol (loadparam M theta)).PLast = M.PLast ∧
    (prep_ineq_vol (loadparam M theta)).K = M.K ∧
    (loadparam M theta).specs.length = M.specs.length := by
  obtain ⟨h1, h2, _⟩ := loadparam_loop_P M theta M.specs 0 (NumericMatrix.zero M.K M.K)
  have hl := loadparam_loop_length M theta M.specs 0 (NumericMatrix.zero M.K M.K)
  refine ⟨?_, ?_, ?_, rfl, rfl, rfl, rfl, ?_⟩
  · simpa [prep_ineq_vol, loadparam] using hl
  · simpa [prep_ineq_vol, loadparam, NumericMatrix.zero] using h1
  · simpa [prep_ineq_vol, loadparam, NumericMatrix.zero] using h2
  · simpa [loadparam] using hl

theorem mem_lt_of_getD_lt (S : List Nat) (K : Nat)
    (h : ∀ i, i < S.length → S.getD i 0 < K) : ∀ s ∈ S, s < K := by
  intro s hs
  obtain ⟨i, hi, rfl⟩ := List.getElem_of_mem hs
  have := h i hi
  rwa [List.getD_eq_getElem S 0 hi] at this

/-- On an engine with `K ≥ 1` models `f_sim` without burn-in returns two vectors of
length `ntot`, the labels being regime indices; for `ntot = 0` both are empty. -/
theorem f_sim_ok (sqrt : ℝ → ℝ) (M : MSgarch σ V ℝ) (rng : Nat → ℝ) (ntot : Nat)
    (theta : List ℝ) (hK : 1 ≤ M.K) (hs : M.specs.length = M.K) (hP0 : M.P0.length = M.K) :
    ∃ y S, f_sim sqrt M rng ntot theta 0 = some (y, S) ∧ y.length = ntot ∧ S.length = ntot ∧
      ∀ s ∈ S, s < M.K := by
  obtain ⟨l1, l2, l3, _, _, _, _, l8⟩ := loaded_shape M theta
  have hP0ne : (loadparam M theta).P0 ≠ [] := by
    apply List.ne_nil_of_length_pos
    show 0 < M.P0.length
    omega
  obtain ⟨s0, e1, hs0, _, _⟩ := sampleState_spec (loadparam M theta).P0 (rng 0) hP0ne
  have hs0K : s0 < M.K := by
    have : (loadparam M theta).P0.length = M.K := hP0
    omega
  obtain ⟨zr, e3⟩ := rndgen_some (loadparam M theta) s0 M.K (fun i => rng (i + 1))
    (by omega) hs0K
  have hvol : (set_vol (prep_ineq_vol (loadparam M theta)) zr.1).length = M.K := by
    unfold set_vol
    rw [List.length_map]
    omega
  obtain ⟨h, e4⟩ := vol_h_at_some (prep_ineq_vol (loadparam M theta)) _ s0 M.K
    (by omega) hvol hs0K
  rcases Nat.eq_zero_or_pos ntot with h0 | hn
  · subst h0
    refine ⟨[], [], ?_, rfl, rfl, ?_⟩
    · simp only [f_sim, e1, e3, e4, Option.bind_eq_bind, Option.some_bind]
      rfl
    · intro s hmem
      exact absurd hmem (List.not_mem_nil s)
  · have inv0 : SimInv M.K ntot 1
        { y := (List.replicate (ntot + 0) (0 : ℝ)).set 0 (zr.1 * sqrt h),
          S := (List.replicate (ntot + 0) 0).set 0 s0,
          vol := set_vol (prep_ineq_vol (loadparam M theta)) zr.1, rng := zr.2 } := by
      refine ⟨by simp, by simp, hvol, ?_⟩
      intro i hi
      exact getD_set_lt _ 0 s0 i M.K (by simp; omega) (fun j hj => absurd hj (by omega))
        hs0K hi
    obtain ⟨s1, e6, hy, hS, _, hlab⟩ := f_sim_loop_ok sqrt
      (prep_ineq_vol (loadparam M theta)) M.K ntot hK (by omega) l2 l3 _ inv0 (ntot - 1)
      (by omega)
    refine ⟨s1.y, s1.S, ?_, hy, hS, ?_⟩
    · simp only [f_sim, e1, e3, e4, Option.bind_eq_bind, Option.some_bind]
      rw [show ntot + 0 - 1 = ntot - 1 from rfl, e6]
      rfl
    · apply mem_lt_of_getD_lt
      intro i hi
      exact hlab i (by omega)

/-- Burn-in only drops entries: `f_sim(n, theta, burnin)` is `f_sim(n + burnin, theta, 0)`
with the first `burnin` entries of both vectors removed. -/
theorem f_sim_burnin (sqrt : ℝ → ℝ) (M : MSgarch σ V ℝ) (rng : Nat → ℝ) (n burnin : Nat)
    (theta : List ℝ) :
    f_sim sqrt M rng n theta burnin
      = (f_sim sqrt M rng (n + burnin) theta 0).map
          (fun r => (r.1.drop burnin, r.2.drop burnin)) := by
  simp only [f_sim, Nat.add_zero, List.drop_zero, Option.bind_eq_bind, Option.map_bind,
    Function.comp_def, Option.map_some']

theorem bind_some_eq_map {β γ : Type} (x : Option β) (f : β → γ) :
    x.bind (fun a => some (f a)) = x.map f := by
  cases x <;> rfl

theorem take_set_succ {β : Type} (l : List β) (i : Nat) (a : β) (h : i < l.length) :
    (l.set i a).take (i + 1) = l.take i ++ [a] := by
  induction l generalizing i with
  | nil => simp at h
  | cons x xs ih =>
    cases i with
    | zero => simp
    | succ i =>
      have := ih i (by simpa using h)
      simp [List.set, this]

/-- The loop of `f_rnd` fills the two vectors from index `i0` on with the draws of
`rnd_draws`. -/
theorem f_rnd_loop_eq (sqrt : ℝ → ℝ) (M : MSgarch σ V ℝ) (vol : List V) (m : Nat) :
    ∀ (i0 : Nat) (d : List ℝ) (S : List Nat) (rng : Nat → ℝ),
      d.length = i0 + m → S.length = i0 + m →
      ((List.range' i0 m).foldlM (f_rnd_step sqrt M vol) { draw := d, S := S, rng := rng }).map
          (fun st => (st.draw, st.S))
        = (rnd_draws sqrt M vol m rng).map (fun r => (d.take i0 ++ r.1, S.take i0 ++ r.2)) := by
  induction m with
  | zero =>
    intro i0 d S rng hd hS
    simp [rnd_draws, List.take_of_length_le, hd, hS]
  | succ m ih =>
    intro i0 d S rng hd hS
    rw [List.range'_succ]
    simp only [List.foldlM_cons, rnd_draws, f_rnd_step, Option.bind_eq_bind]
    cases h1 : sampleState M.PLast (rng 0) with
    | none => simp
    | some st =>
      have e2 : vecSet S i0 st = some (S.set i0 st) := by
        unfold vecSet
        rw [if_pos (by omega)]
      cases h3 : rndgen M st (fun j => rng (j + 1)) with
      | none => simp [e2, h3]
      | some zr =>
        cases h4 : vol_h_at M vol st with
        | none => simp [e2, h3, h4]
        | some h =>
          have e5 : vecSet d i0 (zr.1 * sqrt h) = some (d.set i0 (zr.1 * sqrt h)) := by
            unfold vecSet
            rw [if_pos (by omega)]
          simp only [e2, h3, h4, e5, Option.some_bind]
          rw [ih (i0 + 1) _ _ zr.2 (by simp; omega) (by simp; omega)]
          cases rnd_draws sqrt M vol m zr.2 with
          | none => rfl
          | some r =>
            simp [take_set_succ d i0 _ (by omega : i0 < d.length),
              take_set_succ S i0 _ (by omega : i0 < S.length)]

/-- The value of `f_rnd`: once `y[0]` is read, the draws of `rnd_draws` on the engine
left by the filter and the volatility vector advanced over `y`. -/
theorem f_rnd_eq (exp log sqrt : ℝ → ℝ) (M : MSgarch σ V ℝ) (rng : Nat → ℝ) (n : Nat)
    (theta : List ℝ) (y : List ℝ) :
    f_rnd exp log sqrt M rng n theta y
      = y[0]?.bind (fun y0 => rnd_draws sqrt (engine_after_filter exp log M theta y)
          (vol_after M theta y y0) n rng) := by
  cases hy : y[0]? with
  | none => simp [f_rnd, hy]
  | some y0 =>
    have h := f_rnd_loop_eq sqrt (engine_after_filter exp log M theta y)
      (vol_after M theta y y0) n 0 (List.replicate n 0) (List.replicate n 0) rng
      (by simp) (by simp)
    simp only [List.take_zero, List.nil_append, Prod.mk.eta, Option.map_id'] at h
    rw [Option.some_bind, ← h]
    simp only [f_rnd, hy, Option.bind_eq_bind, Option.some_bind, List.range_eq_range',
      engine_after_filter, vol_after]
    exact bind_some_eq_map _ _

/-- Every label drawn by `rnd_draws` is an index of `PLast`. -/
theorem rnd_draws_labels (sqrt : ℝ → ℝ) (M : MSgarch σ V ℝ) (vol : List V) (n : Nat) :
    ∀ (rng : Nat → ℝ) (r : List ℝ × List Nat), rnd_draws sqrt M vol n rng = some r →
      ∀ s ∈ r.2, s < M.PLast.length := by
  induction n with
  | zero =>
    intro rng r hr
    simp only [rnd_draws, Option.some.injEq] at hr
    subst hr
    simp
  | succ n ih =>
    intro rng r hr
    simp only [rnd_draws, Option.bind_eq_bind] at hr
    cases h1 : sampleState M.PLast (rng 0) with
    | none => simp [h1] at hr
    | some st =>
      cases h3 : rndgen M st (fun j => rng (j + 1)) with
      | none => simp [h1, h3] at hr
      | some zr =>
        cases h4 : vol_h_at M vol st with
        | none => simp [h1, h3, h4] at hr
        | some h =>
          cases h5 : rnd_draws sqrt M vol n zr.2 with
          | none => simp [h1, h3, h4, h5] at hr
          | some rest =>
            simp only [h1, h3, h4, h5, Option.some_bind, Option.some.injEq] at hr
            subst hr
            have hne : M.PLast ≠ [] := by
              intro hnil
              simp [sampleState, hnil] at h1
            obtain ⟨i, hi, hlt, _, _⟩ := sampleState_spec M.PLast (rng 0) hne
            rw [h1, Option.some.injEq] at hi
            intro s hs
            rcases List.mem_cons.mp hs with h0 | h0
            · rw [h0, hi]; exact hlt
            · exact ih zr.2 rest h5 s h0

theorem matrixProd_length (v : List ℝ) (P : NumericMatrix ℝ) :
    (matrixProd v P).length = v.length := by
  simp [matrixProd]

theorem HF_predict_lengths (exp : ℝ → ℝ) (M : MSgarch σ V ℝ) (L : NumericMatrix ℝ) (K : Nat)
    (hL : L.nrow = K) (lnd : ℝ) (Pspot : List ℝ) (hp : Pspot.length = K) (t : Nat) :
    (HF_predict exp M L lnd Pspot t).Pspot.length = K ∧
    (HF_predict exp M L lnd Pspot t).tmp.length = K := by
  refine ⟨hp, ?_⟩
  simp [HF_predict, vecMul, matrixProd_length, NumericMatrix.col, hp, hL]

/-- The vector `PLast` left by the filter has one entry per regime. -/
theorem HamiltonFilter_PLast_length (exp log : ℝ → ℝ) (M : MSgarch σ V ℝ)
    (L : NumericMatrix ℝ) (K : Nat) (hP0 : M.P0.length = K) (hL : L.nrow = K) :
    (HamiltonFilter exp log M L).2.PLast.length = K := by
  have key : ∀ (l : List Nat) (s : HFState ℝ), s.Pspot.length = K ∧ s.tmp.length = K →
      (l.foldl (HF_step exp log M L) s).Pspot.length = K ∧
      (l.foldl (HF_step exp log M L) s).tmp.length = K := by
    intro l
    induction l with
    | nil => intro s hs; exact hs
    | cons t l ih =>
      intro s hs
      rw [List.foldl_cons]
      apply ih
      unfold HF_step
      exact HF_predict_lengths exp M L K hL _ _ (by simp [hs.2]) t
  have h0 := HF_predict_lengths exp M L K hL 0 M.P0 hP0 0
  simp only [HamiltonFilter, matrixProd_length]
  exact (key _ _ h0).1

theorem calc_lndMat_shape (M : MSgarch σ V ℝ) (y : List ℝ) :
    (calc_lndMat M y).1.nrow = M.K ∧ (calc_lndMat M y).2 = prep_kernel M := by
  have key : ∀ (l : List Nat) (s : List V × NumericMatrix ℝ),
      (l.foldl (fun (s : List V × NumericMatrix ℝ) t =>
        ((increment_vol (prep_kernel M) s.1 (y.getD (t - 1) 0)),
          s.2.setCol (t - 1) (calc_kernel (prep_kernel M)
            (increment_vol (prep_kernel M) s.1 (y.getD (t - 1) 0)) (y.getD t 0)))) s).2.nrow
        = s.2.nrow := by
    intro l
    induction l with
    | nil => intro s; rfl
    | cons t l ih =>
      intro s
      rw [List.foldl_cons, ih]
      rfl
  refine ⟨?_, rfl⟩
  simp only [calc_lndMat]
  rw [key]
  rfl

/-- The engine left by `loadparam; prep_ineq_vol; HamiltonFilter(calc_lndMat(y))`: as
many models as before and one entry of `PLast` per regime. -/
theorem engine_after_filter_shape (exp log : ℝ → ℝ) (M : MSgarch σ V ℝ) (theta y : List ℝ)
    (hP0 : M.P0.length = M.K) :
    (engine_after_filter exp log M theta y).specs.length = M.specs.length ∧
    (engine_after_filter exp log M theta y).PLast.length = M.K := by
  obtain ⟨l1, _, _, _, _, _, _, _⟩ := loaded_shape M theta
  obtain ⟨c1, c2⟩ := calc_lndMat_shape (prep_ineq_vol (loadparam M theta)) y
  constructor
  · show (calc_lndMat (prep_ineq_vol (loadparam M theta)) y).2.specs.length = _
    rw [c2]
    simpa [prep_kernel] using l1
  · unfold engine_after_filter
    apply HamiltonFilter_PLast_length
    · rw [c2]
      exact hP0
    · exact c1

theorem zipWith_replicate_left {β γ δ : Type} (f : β → γ → δ) (c : β) (x : List γ) :
    List.zipWith f (List.replicate x.length c) x = x.map (f c) := by
  induction x with
  | nil => rfl
  | cons a x ih => simp [List.replicate_succ, ih]

theorem zipWith_zipWith_map {β γ δ ε ζ : Type} (g : δ → γ → ζ) (f : β → ε → δ) (t : γ → ε)
    (out : List β) (x : List γ) :
    List.zipWith g (List.zipWith f out (x.map t)) x
      = List.zipWith (fun o xi => g (f o (t xi)) xi) out x := by
  induction out generalizing x with
  | nil => simp
  | cons o out ih =>
    cases x with
    | nil => simp
    | cons a x => simp [ih]

theorem zipWith_add_zero (out : List ℝ) {γ : Type} (x : List γ) (h : out.length = x.length) :
    List.zipWith (fun o _ => o + 0) out x = out := by
  induction out generalizing x with
  | nil => simp
  | cons o out ih =>
    cases x with
    | nil => simp at h
    | cons a x =>
      simp only [List.zipWith_cons_cons, add_zero, List.cons.injEq, true_and]
      simpa using ih x (by simpa using h)

/-- The loop of `f_pdf` over the models, started at model `s`, adds to `out` the mixture
terms of the models from `s` on. -/
theorem f_pdf_loop_spec (sqrt : ℝ → ℝ) (M : MSgarch σ V ℝ) (vol : List V) (x : List ℝ)
    (specs : List (Spec σ V ℝ)) :
    ∀ (s : Nat) (tmp out : List ℝ), out.length = x.length → s + specs.length ≤ vol.length →
      s + specs.length ≤ M.PLast.length →
      ∃ tmp1, f_pdf_loop sqrt M vol x specs s tmp out
        = some (tmp1, List.zipWith
            (fun o xi => o + mixture_pdf sqrt specs (vol.drop s) (M.PLast.drop s) xi) out x) := by
  induction specs with
  | nil =>
    intro s tmp out ho _ _
    refine ⟨tmp, ?_⟩
    simp only [f_pdf_loop, mixture_pdf]
    rw [zipWith_add_zero out x ho]
  | cons it rest ih =>
    intro s tmp out ho hv hp
    simp only [List.length_cons] at hv hp
    have hvs : s < vol.length := by omega
    have hps : s < M.PLast.length := by omega
    obtain ⟨tmp1, e⟩ := ih (s + 1)
      (x.map (fun xi => it.impl.spec_calc_pdf it.state (xi / sqrt (it.impl.vol_h vol[s]))
        / sqrt (it.impl.vol_h vol[s])))
      (List.zipWith (fun o t => o + t * M.PLast[s]) out
        (x.map (fun xi => it.impl.spec_calc_pdf it.state (xi / sqrt (it.impl.vol_h vol[s]))
          / sqrt (it.impl.vol_h vol[s]))))
      (by simp [ho]) (by omega) (by omega)
    refine ⟨tmp1, ?_⟩
    simp only [f_pdf_loop, List.getElem?_eq_getElem hvs, List.getElem?_eq_getElem hps,
      Option.bind_eq_bind, Option.some_bind]
    rw [e, zipWith_zipWith_map]
    have hf : (fun (o xi : ℝ) => o
          + it.impl.spec_calc_pdf it.state (xi / sqrt (it.impl.vol_h vol[s]))
            / sqrt (it.impl.vol_h vol[s]) * M.PLast[s]
          + mixture_pdf sqrt rest (List.drop (s + 1) vol) (List.drop (s + 1) M.PLast) xi)
        = (fun (o xi : ℝ) => o
          + mixture_pdf sqrt (it :: rest) (List.drop s vol) (List.drop s M.PLast) xi) := by
      funext o xi
      rw [List.drop_eq_getElem_cons hvs, List.drop_eq_getElem_cons hps]
      simp only [mixture_pdf]
      ring
    rw [hf]

theorem advance_vol_length (M : MSgarch σ V ℝ) (y : List ℝ) (vol0 : List V) (K : Nat)
    (hs : M.specs.length = K) (hv : vol0.length = K) :
    (advance_vol M y vol0).length = K := by
  unfold advance_vol
  generalize List.range' 1 y.length = l
  induction l generalizing vol0 with
  | nil => exact hv
  | cons t l ih =>
    rw [List.foldl_cons]
    exact ih _ (increment_vol_length M vol0 _ K hs hv)

/-- The value of `f_pdf` without the log: the regime mixture at every point. -/
theorem f_pdf_eq (exp log sqrt : ℝ → ℝ) (M : MSgarch σ V ℝ) (x theta y : List ℝ) (y0 : ℝ)
    (hs : M.specs.length = M.K) (hP0 : M.P0.length = M.K) (hy : y[0]? = some y0) :
    f_pdf exp log sqrt M x theta y false
      = some (x.map (fun xi => mixture_pdf sqrt (engine_after_filter exp log M theta y).specs
          (vol_after M theta y y0) (engine_after_filter exp log M theta y).PLast xi)) := by
  obtain ⟨l1, _, _, _, _, _, _, _⟩ := loaded_shape M theta
  obtain ⟨a1, a2⟩ := engine_after_filter_shape exp log M theta y hP0
  have hvol : (vol_after M theta y y0).length = M.K := by
    unfold vol_after
    apply advance_vol_length _ _ _ _ (by omega)
    unfold set_vol
    rw [List.length_map]
    omega
  obtain ⟨tmp1, e⟩ := f_pdf_loop_spec sqrt (engine_after_filter exp log M theta y)
    (vol_after M theta y y0) x (engine_after_filter exp log M theta y).specs 0
    (List.replicate x.length 0) (List.replicate x.length 0) (by simp) (by omega) (by omega)
  simp only [List.drop_zero] at e
  rw [zipWith_replicate_left] at e
  simp only [zero_add] at e
  simp only [f_pdf, hy, Option.bind_eq_bind, Option.some_bind]
  show (f_pdf_loop sqrt (engine_after_filter exp log M theta y) (vol_after M theta y y0) x
    (engine_after_filter exp log M theta y).specs 0 (List.replicate x.length 0)
    (List.replicate x.length 0)).bind _ = _
  rw [e]
  rfl

/-- Under a row-stochastic non-negative `P` and a probability vector `P0`, the vector
`PLast` left by the filter is the predictive distribution of a probability vector: its
entries are non-negative and sum to `1`. -/
theorem HamiltonFilter_PLast_prob (M : MSgarch σ V ℝ) (L : NumericMatrix ℝ) (K : Nat)
    (h : StochasticChain K M.P M.P0) (hL : L.nrow = K) :
    (HamiltonFilter Real.exp Real.log M L).2.PLast.sum = 1 ∧
    ∀ p ∈ (HamiltonFilter Real.exp Real.log M L).2.PLast, 0 ≤ p := by
  obtain ⟨_, h2, _⟩ := HFInv_foldl K L M h hL (L.ncol - 1)
  have hS := forwardVec_sum_pos K M.P M.P0 L h (L.ncol - 1)
  have e : (HamiltonFilter Real.exp Real.log M L).2.PLast
      = (List.range K).map (fun i => ∑ r ∈ Finset.range K,
          forwardVec Real.exp K M.P M.P0 L (L.ncol - 1) r
            / (∑ j ∈ Finset.range K, forwardVec Real.exp K M.P M.P0 L (L.ncol - 1) j)
            * M.P.val r i) := by
    simp only [HamiltonFilter]
    rw [h2, matrixProd_map_range K _ _ h.nrow]
  rw [e]
  constructor
  · rw [sum_map_range_eq_finset, sum_pred_eq K M.P M.P0 h, ← Finset.sum_div,
      div_self hS.ne.symm]
  · intro p hp
    obtain ⟨i, hi, rfl⟩ := List.mem_map.mp hp
    apply Finset.sum_nonneg
    intro r hr
    exact mul_nonneg
      (div_nonneg (forwardVec_nonneg K M.P M.P0 L h _ r (Finset.mem_range.mp hr)) hS.le)
      (h.P_nonneg r i (Finset.mem_range.mp hr) (List.mem_range.mp hi))

end SimLemmas

/-! ## Claims on sampling and simulation -/

section SampleClaims

variable {σ V : Type}

/-- C11: with the uniform draw `u` an explicit input, for every non-empty vector `P`,
`sampleState(P, u)` returns the least index `i` with `u ≤ P[0] + ... + P[i]` (every
earlier cumulative sum is below `u`), and returns the last index `P.size() - 1` when no
index satisfies it. -/
theorem sampleState_least_index (P : List ℝ) (u : ℝ) (hP : P ≠ []) :
    ∃ i, sampleState P u = some i ∧ i < P.length ∧
      ((∃ k, k < P.length ∧ u ≤ (P.take (k + 1)).sum) →
        u ≤ (P.take (i + 1)).sum ∧ ∀ j, j < i → ¬ u ≤ (P.take (j + 1)).sum) ∧
      ((∀ k, k < P.length → ¬ u ≤ (P.take (k + 1)).sum) → i = P.length - 1) := by
  obtain ⟨i, hi, hlt, hbelow, hor⟩ := sampleState_spec P u hP
  refine ⟨i, hi, hlt, ?_, ?_⟩
  · rintro ⟨k, hk, hku⟩
    refine ⟨?_, fun j hj => not_le.mpr (hbelow j hj)⟩
    rcases hor with h | h
    · exact h
    · have hki : k ≤ i := by omega
      rcases Nat.lt_or_eq_of_le hki with h1 | h1
      · exact absurd hku (not_le.mpr (hbelow k h1))
      · rw [← h1]; exact hku
  · intro hnone
    rcases hor with h | h
    · exact absurd h (hnone i hlt)
    · exact h

/-- Witness of C11: on `(3/10, 7/10)` and `u = 1/2` the scan stops at index `1`. -/
theorem sampleState_least_index_witness :
    ∃ i, sampleState ([3 / 10, 7 / 10] : List ℝ) (1 / 2) = some i ∧ i < 2 ∧
      ((∃ k, k < 2 ∧ (1 / 2 : ℝ) ≤ (([3 / 10, 7 / 10] : List ℝ).take (k + 1)).sum) →
        (1 / 2 : ℝ) ≤ (([3 / 10, 7 / 10] : List ℝ).take (i + 1)).sum ∧
        ∀ j, j < i → ¬ (1 / 2 : ℝ) ≤ (([3 / 10, 7 / 10] : List ℝ).take (j + 1)).sum) ∧
      ((∀ k, k < 2 → ¬ (1 / 2 : ℝ) ≤ (([3 / 10, 7 / 10] : List ℝ).take (k + 1)).sum) →
        i = 2 - 1) :=
  sampleState_least_index [3 / 10, 7 / 10] (1 / 2) (by simp)

/-- C12: for every non-empty vector `P` (of any real entries) and every draw `u`,
`sampleState` returns an index in `[0, P.size() - 1]` and none of its reads of `P` is
out of range (the checked scan returns a value); hence, on an engine with `K ≥ 1`
models, every regime label in the `state` vector returned by `f_sim` and by `f_rnd` lies
in `[0, K - 1]`. -/
theorem regime_labels_in_range (sqrt : ℝ → ℝ) (M : MSgarch σ V ℝ) (hK : 1 ≤ M.K)
    (hs : M.specs.length = M.K) (hP0 : M.P0.length = M.K) :
    (∀ (P : List ℝ) (u : ℝ), P ≠ [] → ∃ i, sampleState P u = some i ∧ i < P.length) ∧
    (∀ (rng : Nat → ℝ) (n : Nat) (theta : List ℝ) (burnin : Nat) (r : List ℝ × List Nat),
      f_sim sqrt M rng n theta burnin = some r → ∀ s ∈ r.2, s < M.K) ∧
    (∀ (rng : Nat → ℝ) (n : Nat) (theta y : List ℝ) (r : List ℝ × List Nat),
      f_rnd Real.exp Real.log sqrt M rng n theta y = some r → ∀ s ∈ r.2, s < M.K) := by
  refine ⟨?_, ?_, ?_⟩
  · intro P u hP
    obtain ⟨i, hi, hlt, _, _⟩ := sampleState_spec P u hP
    exact ⟨i, hi, hlt⟩
  · intro rng n theta burnin r hr
    obtain ⟨y, S, e, _, _, hlab⟩ := f_sim_ok sqrt M rng (n + burnin) theta hK hs hP0
    rw [f_sim_burnin, e, Option.map_some', Option.some.injEq] at hr
    subst hr
    intro s hmem
    exact hlab s (List.mem_of_mem_drop hmem)
  · intro rng n theta y r hr
    rw [f_rnd_eq] at hr
    cases hy : y[0]? with
    | none => simp [hy] at hr
    | some y0 =>
      rw [hy, Option.some_bind] at hr
      have := rnd_draws_labels sqrt _ _ n rng r hr
      rw [(engine_after_filter_shape Real.exp Real.log M theta y hP0).2] at this
      exact this

/-- Witness of C12 on the two-regime engine `exEngine`: the scan of `(3/10, 7/10)` with
`u = 1/2` returns an index below `2`. -/
theorem regime_labels_in_range_witness :
    ∃ i, sampleState ([3 / 10, 7 / 10] : List ℝ) (1 / 2) = some i
      ∧ i < ([3 / 10, 7 / 10] : List ℝ).length :=
  (regime_labels_in_range Real.sqrt (exEngine ℝ Real.log) (by decide) rfl rfl).1
    [3 / 10, 7 / 10] (1 / 2) (by simp)

/-- C13: on an engine with `K ≥ 1` models, for every `n ≥ 0`, `burnin ≥ 0` and `theta`,
`f_sim(n + burnin, theta, 0)` returns two vectors of length `n + burnin`, and
`f_sim(n, theta, burnin)` on the same random stream returns a `value` and a `state`
sequence of length `n` that are their last `n` entries: the first `burnin` simulated
points are dropped and nothing else changes. -/
theorem f_sim_burnin_tail (sqrt : ℝ → ℝ) (M : MSgarch σ V ℝ) (rng : Nat → ℝ)
    (n burnin : Nat) (theta : List ℝ) (hK : 1 ≤ M.K) (hs : M.specs.length = M.K)
    (hP0 : M.P0.length = M.K) :
    ∃ y S, f_sim sqrt M rng (n + burnin) theta 0 = some (y, S) ∧
      y.length = n + burnin ∧ S.length = n + burnin ∧
      f_sim sqrt M rng n theta burnin = some (y.drop burnin, S.drop burnin) ∧
      (y.drop burnin).length = n ∧ (S.drop burnin).length = n ∧
      y.drop burnin = (y.reverse.take n).reverse ∧
      S.drop burnin = (S.reverse.take n).reverse := by
  obtain ⟨y, S, e, hy, hS, _⟩ := f_sim_ok sqrt M rng (n + burnin) theta hK hs hP0
  refine ⟨y, S, e, hy, hS, ?_, ?_, ?_, ?_, ?_⟩
  · rw [f_sim_burnin, e]
    rfl
  · rw [List.length_drop, hy]
    omega
  · rw [List.length_drop, hS]
    omega
  · rw [List.reverse_take, List.reverse_reverse, List.length_reverse, hy]
    congr 1
    omega
  · rw [List.reverse_take, List.reverse_reverse, List.length_reverse, hS]
    congr 1
    omega

/-- Witness of C13: three points after a burn-in of two on `exEngine`. -/
theorem f_sim_burnin_tail_witness :
    ∃ y S, f_sim Real.sqrt (exEngine ℝ Real.log) (exStream ℝ) (3 + 2) (exTheta ℝ) 0
        = some (y, S) ∧
      y.length = 3 + 2 ∧ S.length = 3 + 2 ∧
      f_sim Real.sqrt (exEngine ℝ Real.log) (exStream ℝ) 3 (exTheta ℝ) 2
        = some (y.drop 2, S.drop 2) ∧
      (y.drop 2).length = 3 ∧ (S.drop 2).length = 3 ∧
      y.drop 2 = (y.reverse.take 3).reverse ∧
      S.drop 2 = (S.reverse.take 3).reverse :=
  f_sim_burnin_tail Real.sqrt (exEngine ℝ Real.log) (exStream ℝ) 3 2 (exTheta ℝ)
    (by decide) rfl rfl

end SampleClaims

/-! ## Claims on the mixture density -/

section DensityClaims

variable {σ V : Type}

/-- C16: for `K = 2`, whenever both regimes have the same standardized density `pdf`
and the same variance `sig2` after advancing over `y`, `f_pdf(x, theta, y, false)` is the
single-regime density `pdf (x_i / sigma) / sigma`, `sigma = sqrt sig2`, at every point,
for every `theta` whose loaded transition matrix is row-stochastic and non-negative
(`P0` being a probability vector): the `PLast` left by the filter sums to `1`. -/
theorem f_pdf_identical_regimes (sqrt : ℝ → ℝ) (M : MSgarch σ V ℝ) (x theta y : List ℝ)
    (pdf : ℝ → ℝ) (sig2 : ℝ) (hK : M.K = 2) (hs : M.specs.length = 2)
    (hchain : StochasticChain 2 (loadparam M theta).P M.P0) (hy : 2 ≤ y.length)
    (hpdf : ∀ it ∈ (engine_after_filter Real.exp Real.log M theta y).specs,
      ∀ z, it.impl.spec_calc_pdf it.state z = pdf z)
    (hvar : ∀ k, k < 2 → vol_h_at (engine_after_filter Real.exp Real.log M theta y)
      (vol_after M theta y (y.getD 0 0)) k = some sig2) :
    (engine_after_filter Real.exp Real.log M theta y).PLast.sum = 1 ∧
    f_pdf Real.exp Real.log sqrt M x theta y false
      = some (x.map (fun xi => pdf (xi / sqrt sig2) / sqrt sig2)) := by
  have h0 : y[0]? = some (y.getD 0 0) := by
    rw [List.getD_eq_getElem?_getD, List.getElem?_eq_getElem (by omega)]
    rfl
  have hP0 : M.P0.length = M.K := by rw [hK]; exact hchain.P0_len
  rw [f_pdf_eq Real.exp Real.log sqrt M x theta y _ (by omega) hP0 h0]
  obtain ⟨a1, a2⟩ := engine_after_filter_shape Real.exp Real.log M theta y hP0
  obtain ⟨c1, c2⟩ := calc_lndMat_shape (prep_ineq_vol (loadparam M theta)) y
  have hsum : (engine_after_filter Real.exp Real.log M theta y).PLast.sum = 1 := by
    unfold engine_after_filter
    refine (HamiltonFilter_PLast_prob _ _ 2 ?_ (by rw [c1]; exact hK)).1
    rw [c2]
    exact hchain
  have hvol : (vol_after M theta y (y.getD 0 0)).length = 2 := by
    obtain ⟨l1, _, _, _, _, _, _, _⟩ := loaded_shape M theta
    unfold vol_after
    apply advance_vol_length _ _ _ _ (by omega)
    unfold set_vol
    rw [List.length_map]
    omega
  obtain ⟨a, b, hab⟩ := List.length_eq_two.mp (a1.trans hs)
  obtain ⟨va, vb, hvab⟩ := List.length_eq_two.mp hvol
  obtain ⟨p, q, hpq⟩ := List.length_eq_two.mp (a2.trans hK)
  have hva := hvar 0 (by decide)
  have hvb := hvar 1 (by decide)
  simp only [vol_h_at, hab, hvab, List.getElem?_cons_zero, List.getElem?_cons_succ,
    Option.some.injEq] at hva hvb
  have hpa := hpdf a (by rw [hab]; simp)
  have hpb := hpdf b (by rw [hab]; simp)
  refine ⟨hsum, ?_⟩
  rw [hpq] at hsum
  simp only [List.sum_cons, List.sum_nil, add_zero] at hsum
  rw [hab, hvab, hpq]
  congr 1
  apply List.map_congr_left
  intro xi _
  simp only [mixture_pdf, hva, hvb, hpa, hpb, add_zero]
  rw [← add_mul, hsum, one_mul]

/-- Witness of C16: the two models of `exEngine` have the same density (constant `1`)
and the same variance `1`. -/
theorem f_pdf_identical_regimes_witness :
    (engine_after_filter Real.exp Real.log (exEngine ℝ Real.log) (exTheta ℝ)
        (exY ℝ)).PLast.sum = 1 ∧
    f_pdf Real.exp Real.log Real.sqrt (exEngine ℝ Real.log) [0, 1] (exTheta ℝ) (exY ℝ) false
      = some (([0, 1] : List ℝ).map (fun xi => (fun _ => (1 : ℝ)) (xi / Real.sqrt 1)
          / Real.sqrt 1)) :=
  f_pdf_identical_regimes Real.sqrt (exEngine ℝ Real.log) [0, 1] (exTheta ℝ) (exY ℝ)
    (fun _ => 1) 1 rfl rfl exLoaded_chain (by decide)
    (by
      intro it hit z
      have hs : (engine_after_filter Real.exp Real.log (exEngine ℝ Real.log) (exTheta ℝ)
          (exY ℝ)).specs = [⟨exBase ℝ, [1]⟩, ⟨exBase ℝ, [2]⟩] := by
        simp [engine_after_filter, HamiltonFilter, calc_lndMat, prep_kernel, prep_ineq_vol,
          loadparam, loadparam_loop, exEngine, MSgarch.new, MSgarch.new_loop, exBase,
          extract_theta_it, MyCumsum, vecRange, exTheta, List.range_succ]
      rw [hs] at hit
      simp only [List.mem_cons, List.mem_singleton, List.not_mem_nil, or_false] at hit
      rcases hit with h | h <;> rw [h] <;> rfl)
    (by
      intro k hk
      have hs : (engine_after_filter Real.exp Real.log (exEngine ℝ Real.log) (exTheta ℝ)
          (exY ℝ)).specs = [⟨exBase ℝ, [1]⟩, ⟨exBase ℝ, [2]⟩] := by
        simp [engine_after_filter, HamiltonFilter, calc_lndMat, prep_kernel, prep_ineq_vol,
          loadparam, loadparam_loop, exEngine, MSgarch.new, MSgarch.new_loop, exBase,
          extract_theta_it, MyCumsum, vecRange, exTheta, List.range_succ]
      have hv : vol_after (exEngine ℝ Real.log) (exTheta ℝ) (exY ℝ) ((exY ℝ).getD 0 0)
          = [1, 1] := by
        simp [vol_after, advance_vol, set_vol, increment_vol, prep_ineq_vol, loadparam,
          loadparam_loop, exEngine, MSgarch.new, exBase, List.range', exY]
      rw [hv]
      interval_cases k <;> simp [vol_h_at, hs, exBase])

end DensityClaims

/-! ## Construction and inequality function: lemmas -/

section ConstructionLemmas

variable {σ V : Type}

theorem MyConcatenate_eq {β : Type} (x y : List β) : MyConcatenate x y = x ++ y := by
  have key : ∀ n, n ≤ y.length →
      (List.range n).foldl (fun acc i => acc ++ y[i]?.toList) x = x ++ y.take n := by
    intro n
    induction n with
    | zero => intro _; simp
    | succ n ih =>
      intro hn
      rw [List.range_succ, List.foldl_append, ih (by omega), List.take_succ]
      simp
  unfold MyConcatenate
  rw [key y.length (le_refl _), List.take_length]

/-- What the loop of the constructor over the models appends to each vector. -/
theorem new_loop_fields (M : MSgarch σ V ℝ) (L : List (Spec σ V ℝ)) :
    (MSgarch.new_loop M L).theta0 = M.theta0 ++ (L.map (fun it => it.impl.spec_theta0)).flatten ∧
    (MSgarch.new_loop M L).NbParams = M.NbParams ++ L.map (fun it => it.impl.spec_nb_coeffs) ∧
    (MSgarch.new_loop M L).ineq_lb = M.ineq_lb ++ L.map (fun it => it.impl.spec_ineq_lb) ∧
    (MSgarch.new_loop M L).ineq_ub = M.ineq_ub ++ L.map (fun it => it.impl.spec_ineq_ub) ∧
    (MSgarch.new_loop M L).K = M.K ∧ (MSgarch.new_loop M L).specs = M.specs := by
  induction L generalizing M with
  | nil => simp [MSgarch.new_loop]
  | cons it rest ih =>
    obtain ⟨h1, h2, h3, h4, h5, h6⟩ := ih
      { M with
        name := M.name ++ [it.impl.spec_name]
        theta0 := MyConcatenate M.theta0 it.impl.spec_theta0
        Sigma0 := MyConcatenate M.Sigma0 it.impl.spec_Sigma0
        label := MyConcatenate M.label it.impl.spec_label
        lower := MyConcatenate M.lower it.impl.spec_lower
        upper := MyConcatenate M.upper it.impl.spec_upper
        ineq_lb := MyConcatenate M.ineq_lb [it.impl.spec_ineq_lb]
        ineq_ub := MyConcatenate M.ineq_ub [it.impl.spec_ineq_ub]
        NbParams := M.NbParams ++ [it.impl.spec_nb_coeffs]
        NbParamsModel := M.NbParamsModel ++ [it.impl.spec_nb_coeffs_model] }
    simp only [MSgarch.new_loop]
    rw [h1, h2, h3, h4, h5, h6]
    simp [MyConcatenate_eq]

/-- The fields of the engine built by the constructor from the models `L`. -/
theorem new_fields (log : ℝ → ℝ) (L : List (Spec σ V ℝ)) :
    (MSgarch.new log L).K = L.length ∧ (MSgarch.new log L).specs = L ∧
    (MSgarch.new log L).NbParams = L.map (fun it => it.impl.spec_nb_coeffs) ∧
    (MSgarch.new log L).P0 = List.replicate L.length (1 / (L.length : ℝ)) ∧
    (MSgarch.new log L).theta0 = (L.map (fun it => it.impl.spec_theta0)).flatten
      ++ (if 1 < L.length then List.replicate (L.length * (L.length - 1)) (1 / (L.length : ℝ))
          else []) ∧
    (MSgarch.new log L).ineq_lb = L.map (fun it => it.impl.spec_ineq_lb)
      ++ (if 1 < L.length then List.replicate L.length 0 else []) ∧
    (MSgarch.new log L).ineq_ub = L.map (fun it => it.impl.spec_ineq_ub)
      ++ (if 1 < L.length then List.replicate L.length 1 else []) := by
  obtain ⟨h1, h2, h3, h4, h5, h6⟩ := new_loop_fields
    ({ specs := L, K := L.length, P := NumericMatrix.zero 0 0, PLast := [], P0 := [],
       P_mean := 0, P_sd := 0, LND_MIN := 0,
       name := [], theta0 := [], Sigma0 := [], label := [], lower := [], upper := [],
       ineq_lb := [], ineq_ub := [], NbParams := [], NbParamsModel := [] } : MSgarch σ V ℝ) L
  simp only [List.nil_append] at h1 h2 h3 h4 h5 h6
  by_cases hK : 1 < L.length
  · simp only [MSgarch.new, if_pos hK, MyConcatenate_eq, h1, h2, h3, h4, h5, h6]
    simp
  · simp only [MSgarch.new, if_neg hK, h1, h2, h3, h4, h5, h6]
    simp

theorem vecRange_append_left {β : Type} (A B : List β) (a b : Nat) :
    vecRange (A ++ B) (A.length + a) (A.length + b) = vecRange B a b := by
  unfold vecRange
  rw [List.take_append, List.drop_append]

theorem vecRange_replicate {β : Type} (N a b : Nat) (c : β) (hb : b ≤ N) :
    vecRange (List.replicate N c) a b = List.replicate (b - a) c := by
  unfold vecRange
  rw [List.take_replicate, List.drop_replicate, Nat.min_eq_left hb]

theorem length_flatten_theta0 (L : List (Spec σ V ℝ))
    (hlen : ∀ it ∈ L, it.impl.spec_theta0.length = it.impl.spec_nb_coeffs) :
    (L.map (fun it => it.impl.spec_theta0)).flatten.length
      = (L.map (fun it => it.impl.spec_nb_coeffs)).sum := by
  induction L with
  | nil => rfl
  | cons it rest ih =>
    simp only [List.map_cons, List.flatten_cons, List.length_append, List.sum_cons]
    rw [ih (fun it h => hlen it (List.mem_cons_of_mem _ h)), hlen it (List.mem_cons_self _ _)]

/-- The transition slice of row `k` of the default vector: `K` entries `1/K`. -/
theorem extract_P_it_theta0 (L : List (Spec σ V ℝ)) (hK : 2 ≤ L.length)
    (hlen : ∀ it ∈ L, it.impl.spec_theta0.length = it.impl.spec_nb_coeffs) (k : Nat)
    (hk : k < L.length) :
    extract_P_it (MSgarch.new Real.log L) (MSgarch.new Real.log L).theta0 k
      = List.replicate L.length (1 / (L.length : ℝ)) := by
  obtain ⟨f1, _, f3, _, f5, _, _⟩ := new_fields Real.log L
  have hT := length_flatten_theta0 L hlen
  rw [extract_P_it_eq, f1, f3, f5, if_pos (by omega), ← hT, vecRange_append_left,
    vecRange_replicate _ _ _ _ (Nat.mul_le_mul_right _ (by omega))]
  have e : (k + 1) * (L.length - 1) - k * (L.length - 1) = L.length - 1 := by
    rw [Nat.add_mul]
    omega
  rw [e, List.sum_replicate, nsmul_eq_mul]
  have hL : ((L.length - 1 : Nat) : ℝ) = (L.length : ℝ) - 1 := by
    rw [Nat.cast_sub (by omega)]
    simp
  have hne : (L.length : ℝ) ≠ 0 := by
    have : (0 : ℝ) < (L.length : ℝ) := by exact_mod_cast (by omega : 0 < L.length)
    exact this.ne.symm
  have e2 : 1 - ((L.length - 1 : Nat) : ℝ) * (1 / (L.length : ℝ)) = 1 / (L.length : ℝ) := by
    rw [hL]
    field_simp
  have hrep : ∀ c : ℝ, List.replicate L.length c = List.replicate (L.length - 1) c ++ [c] := by
    intro c
    rw [← List.replicate_succ', Nat.sub_add_cancel (by omega)]
  rw [e2, hrep]

theorem foldl_push_back {β γ : Type} (f : β → γ) (l : List β) (init : List γ) :
    l.foldl (fun out a => out ++ [f a]) init = init ++ l.map f := by
  induction l generalizing init with
  | nil => simp
  | cons a l ih => simp [ih]

/-- The value of `ineq_func`: the models' inequality values, followed for `K > 1` by
the sums of the first `K - 1` entries of the rows of the loaded `P`. -/
theorem ineq_func_eq (M : MSgarch σ V ℝ) (theta : List ℝ) :
    (ineq_func M theta).1
      = (prep_ineq_vol (loadparam M theta)).specs.map (fun it => it.impl.spec_ineq_func it.state)
        ++ (if 1 < M.K then (List.range M.K).map
              (fun i => ∑ j ∈ Finset.range (M.K - 1), (loadparam M theta).P.val i j)
            else []) := by
  have hK : (prep_ineq_vol (loadparam M theta)).K = M.K := rfl
  have hP : (prep_ineq_vol (loadparam M theta)).P = (loadparam M theta).P := rfl
  unfold ineq_func
  simp only [hK, hP, foldl_push_back, List.nil_append]
  by_cases h : 1 < M.K
  · simp only [if_pos h]
    congr 1
    apply List.map_congr_left
    intro i _
    simp only [NumericMatrix.row, NumericMatrix.sub, Nat.zero_add, Nat.sub_zero]
    rw [sum_map_range_eq_finset, show M.K - 2 + 1 = M.K - 1 by omega]
  · simp only [if_neg h, List.append_nil]

/-- The first `K - 1` entries of row `k` of the loaded `P` are the free entries of
`theta` for row `k`, and the last entry is `1` minus their sum. -/
theorem loaded_row_free_sum (M : MSgarch σ V ℝ) (theta : List ℝ) (k : Nat)
    (hK : 1 ≤ M.K) (hspecs : M.specs.length = M.K) (hk : k < M.K)
    (hlen : theta.length = M.NbParams.sum + M.K * (M.K - 1)) :
    ∑ j ∈ Finset.range (M.K - 1), (loadparam M theta).P.val k j
        = (vecRange theta (M.NbParams.sum + k * (M.K - 1))
            (M.NbParams.sum + (k + 1) * (M.K - 1))).sum ∧
    (loadparam M theta).P.val k (M.K - 1)
        = 1 - (vecRange theta (M.NbParams.sum + k * (M.K - 1))
            (M.NbParams.sum + (k + 1) * (M.K - 1))).sum := by
  have hrow := loadparam_P_row M theta k hK hspecs hk hlen
  have hsl := P_slice_length M theta k hk hlen
  have hc : (loadparam M theta).P.ncol = M.K :=
    (loadparam_loop_P M theta M.specs 0 (NumericMatrix.zero M.K M.K)).2.1
  rw [extract_P_it_eq] at hrow
  constructor
  · have h1 : ((loadparam M theta).P.row k).take (M.K - 1)
        = (List.range (M.K - 1)).map (fun j => (loadparam M theta).P.val k j) := by
      unfold NumericMatrix.row
      rw [hc, ← List.map_take, List.take_range, Nat.min_eq_left (by omega)]
    rw [← sum_map_range_eq_finset, ← h1, hrow, List.take_left' hsl]
  · have h2 : ((loadparam M theta).P.row k)[M.K - 1]?
        = some ((loadparam M theta).P.val k (M.K - 1)) := by
      unfold NumericMatrix.row
      rw [hc, List.getElem?_map, List.getElem?_range (by omega)]
      rfl
    rw [hrow, List.getElem?_append_right (by rw [hsl]), hsl] at h2
    simp only [Nat.sub_self, List.getElem?_cons_zero, Option.some.injEq] at h2
    exact h2.symm

end ConstructionLemmas

/-! ## Claims on construction and on the inequality function -/

section ConstructionClaims

variable {σ V : Type}

/-- C17: for every `K ≥ 2` (the models' default vectors having their declared lengths),
the constructor appends exactly `K (K-1)` transition entries, each equal to `1/K`, to
`theta0`, which then has the declared length; loading `theta0` gives a transition matrix
whose every entry, the derived last entry of each row included, equals `1/K`; so every
transition entry of the default vector is strictly inside `(0, 1)`. -/
theorem default_transition_uniform (L : List (Spec σ V ℝ)) (hK : 2 ≤ L.length)
    (hlen : ∀ it ∈ L, it.impl.spec_theta0.length = it.impl.spec_nb_coeffs) :
    (MSgarch.new Real.log L).theta0
      = (L.map (fun it => it.impl.spec_theta0)).flatten
        ++ List.replicate (L.length * (L.length - 1)) (1 / (L.length : ℝ)) ∧
    (MSgarch.new Real.log L).theta0.length
      = (MSgarch.new Real.log L).NbParams.sum
        + (MSgarch.new Real.log L).K * ((MSgarch.new Real.log L).K - 1) ∧
    (∀ k, k < L.length →
      (loadparam (MSgarch.new Real.log L) (MSgarch.new Real.log L).theta0).P.row k
        = List.replicate L.length (1 / (L.length : ℝ))) ∧
    (∀ k, k < L.length →
      ∀ p ∈ extract_P_it (MSgarch.new Real.log L) (MSgarch.new Real.log L).theta0 k,
        0 < p ∧ p < 1) := by
  obtain ⟨f1, f2, f3, _, f5, _, _⟩ := new_fields Real.log L
  have hT := length_flatten_theta0 L hlen
  have hth : (MSgarch.new Real.log L).theta0.length
      = (MSgarch.new Real.log L).NbParams.sum
        + (MSgarch.new Real.log L).K * ((MSgarch.new Real.log L).K - 1) := by
    rw [f1, f3, f5, if_pos (by omega), List.length_append, hT, List.length_replicate]
  refine ⟨?_, hth, ?_, ?_⟩
  · rw [f5, if_pos (by omega)]
  · intro k hk
    rw [loadparam_P_row _ _ k (by rw [f1]; omega) (by rw [f1, f2]) (by rw [f1]; exact hk) hth]
    exact extract_P_it_theta0 L hK hlen k hk
  · intro k hk p hp
    rw [extract_P_it_theta0 L hK hlen k hk] at hp
    have := List.eq_of_mem_replicate hp
    rw [this]
    have h2 : (2 : ℝ) ≤ (L.length : ℝ) := by exact_mod_cast hK
    constructor
    · apply div_pos one_pos
      linarith
    · rw [div_lt_one (by linarith)]
      linarith

/-- Witness of C17 on the two models of `exEngine`. -/
theorem default_transition_uniform_witness :
    (exEngine ℝ Real.log).theta0
      = ([⟨exBase ℝ, []⟩, ⟨exBase ℝ, []⟩].map
          (fun (it : Spec (List ℝ) ℝ ℝ) => it.impl.spec_theta0)).flatten
        ++ List.replicate (2 * (2 - 1)) (1 / ((2 : Nat) : ℝ)) :=
  (default_transition_uniform [⟨exBase ℝ, []⟩, ⟨exBase ℝ, []⟩] (by decide)
    (by
      intro it hit
      simp only [List.mem_cons, List.mem_singleton, List.not_mem_nil, or_false] at hit
      rcases hit with h | h <;> rw [h] <;> rfl)).1

/-- C18: on the engine built by the constructor from `K` models, for `K > 1` and `theta`
of the declared length, `ineq_func(theta)` is the `K` models' inequality values in
model order followed by `K` values, the `k`-th being the sum of the `K - 1` free
transition entries of `theta` for source regime `k`, which is `1 - P[k][K-1]`; for
`K = 1` it is the single model value only.  In both cases its length is the length of
`ineq_lb` and of `ineq_ub`. -/
theorem ineq_func_layout (L : List (Spec σ V ℝ)) (theta : List ℝ) :
    (1 < L.length →
      theta.length = (MSgarch.new Real.log L).NbParams.sum + L.length * (L.length - 1) →
      (ineq_func (MSgarch.new Real.log L) theta).1
        = (prep_ineq_vol (loadparam (MSgarch.new Real.log L) theta)).specs.map
            (fun it => it.impl.spec_ineq_func it.state)
          ++ (List.range L.length).map (fun k =>
              (vecRange theta ((MSgarch.new Real.log L).NbParams.sum + k * (L.length - 1))
                ((MSgarch.new Real.log L).NbParams.sum + (k + 1) * (L.length - 1))).sum) ∧
      ∀ k, k < L.length →
        (vecRange theta ((MSgarch.new Real.log L).NbParams.sum + k * (L.length - 1))
            ((MSgarch.new Real.log L).NbParams.sum + (k + 1) * (L.length - 1))).sum
          = 1 - (loadparam (MSgarch.new Real.log L) theta).P.val k (L.length - 1)) ∧
    (L.length = 1 →
      (ineq_func (MSgarch.new Real.log L) theta).1
        = (prep_ineq_vol (loadparam (MSgarch.new Real.log L) theta)).specs.map
            (fun it => it.impl.spec_ineq_func it.state) ∧
      (ineq_func (MSgarch.new Real.log L) theta).1.length = 1) ∧
    ((prep_ineq_vol (loadparam (MSgarch.new Real.log L) theta)).specs.map
        (fun it => it.impl.spec_ineq_func it.state)).length = L.length ∧
    (ineq_func (MSgarch.new Real.log L) theta).1.length
      = (MSgarch.new Real.log L).ineq_lb.length ∧
    (ineq_func (MSgarch.new Real.log L) theta).1.length
      = (MSgarch.new Real.log L).ineq_ub.length := by
  obtain ⟨f1, f2, _, _, _, f6, f7⟩ := new_fields Real.log L
  obtain ⟨l1, _, _, _, _, _, _, _⟩ := loaded_shape (MSgarch.new Real.log L) theta
  have hm : ((prep_ineq_vol (loadparam (MSgarch.new Real.log L) theta)).specs.map
      (fun it => it.impl.spec_ineq_func it.state)).length = L.length := by
    rw [List.length_map, l1, f2]
  have hout := ineq_func_eq (MSgarch.new Real.log L) theta
  rw [f1] at hout
  refine ⟨?_, ?_, hm, ?_, ?_⟩
  · intro hK hlen
    have hlen2 : theta.length = (MSgarch.new Real.log L).NbParams.sum
        + (MSgarch.new Real.log L).K * ((MSgarch.new Real.log L).K - 1) := by
      rw [f1]; exact hlen
    have hfree : ∀ k, k < L.length →
        ∑ j ∈ Finset.range (L.length - 1),
            (loadparam (MSgarch.new Real.log L) theta).P.val k j
          = (vecRange theta ((MSgarch.new Real.log L).NbParams.sum + k * (L.length - 1))
              ((MSgarch.new Real.log L).NbParams.sum + (k + 1) * (L.length - 1))).sum ∧
        (loadparam (MSgarch.new Real.log L) theta).P.val k (L.length - 1)
          = 1 - (vecRange theta ((MSgarch.new Real.log L).NbParams.sum + k * (L.length - 1))
              ((MSgarch.new Real.log L).NbParams.sum + (k + 1) * (L.length - 1))).sum := by
      intro k hk
      have := loaded_row_free_sum (MSgarch.new Real.log L) theta k (by rw [f1]; omega)
        (by rw [f1, f2]) (by rw [f1]; exact hk) hlen2
      rw [f1] at this
      exact this
    constructor
    · rw [hout, if_pos hK]
      congr 1
      apply List.map_congr_left
      intro k hk
      exact (hfree k (List.mem_range.mp hk)).1
    · intro k hk
      rw [(hfree k hk).2]
      ring
  · intro hK
    have h1 : ¬ 1 < L.length := by omega
    rw [hout, if_neg h1, List.append_nil]
    exact ⟨rfl, by rw [hm, hK]⟩
  · rw [hout, f6, List.length_append, List.length_append, hm, List.length_map]
    by_cases h : 1 < L.length
    · simp [if_pos h]
    · simp [if_neg h]
  · rw [hout, f7, List.length_append, List.length_append, hm, List.length_map]
    by_cases h : 1 < L.length
    · simp [if_pos h]
    · simp [if_neg h]

/-- Witness of C18 on the two models of `exEngine` and the vector `exTheta`: the result
has the four entries of `ineq_lb`. -/
theorem ineq_func_layout_witness :
    (ineq_func (exEngine ℝ Real.log) (exTheta ℝ)).1
      = (prep_ineq_vol (loadparam (exEngine ℝ Real.log) (exTheta ℝ))).specs.map
          (fun it => it.impl.spec_ineq_func it.state)
        ++ (List.range 2).map (fun k =>
            (vecRange (exTheta ℝ) ((exEngine ℝ Real.log).NbParams.sum + k * (2 - 1))
              ((exEngine ℝ Real.log).NbParams.sum + (k + 1) * (2 - 1))).sum) :=
  ((ineq_func_layout [⟨exBase ℝ, []⟩, ⟨exBase ℝ, []⟩] (exTheta ℝ)).1 (by decide) rfl).1

end ConstructionClaims

/-! ## One regime: lemmas and claim -/

section OneRegime

variable {σ V : Type}

theorem extract_P_it_one_regime (M : MSgarch σ V ℝ) (theta : List ℝ) (k : Nat)
    (hK : M.K = 1) : extract_P_it M theta k = [1] := by
  rw [extract_P_it_eq, hK]
  have e : vecRange theta (M.NbParams.sum + k * (1 - 1)) (M.NbParams.sum + (k + 1) * (1 - 1))
      = [] := by
    apply List.eq_nil_of_length_eq_zero
    simp [vecRange]
  rw [e]
  simp

theorem calc_prior_one_regime (dnorm : ℝ → ℝ → ℝ → ℝ) (M : MSgarch σ V ℝ) (theta : List ℝ)
    (hK : M.K = 1) (hs : M.specs.length = 1) :
    calc_prior dnorm M theta = { r1 := false, r2 := -(10 ^ 10) } := by
  have h := calc_prior_r1_false dnorm M theta 0 1 (by omega) (by omega)
    (by rw [extract_P_it_one_regime M theta 0 hK]; simp) (by simp)
  have h2 : (calc_prior_loop dnorm M theta M.specs 0 true 0).1 = false := h
  unfold calc_prior
  simp only [h2]
  rfl

theorem eval_row_one_regime (dnorm : ℝ → ℝ → ℝ → ℝ) (M : MSgarch σ V ℝ) (theta y : List ℝ)
    (hK : M.K = 1) (hs : M.specs.length = 1) :
    eval_row Real.exp Real.log dnorm M theta y
      = (-(10 ^ 10), prep_ineq_vol (loadparam M theta)) := by
  obtain ⟨l1, _, _, _, _, _, l7, _⟩ := loaded_shape M theta
  have h := calc_prior_one_regime dnorm (prep_ineq_vol (loadparam M theta)) theta
    (by rw [l7, hK]) (by rw [l1, hs])
  unfold eval_row
  simp only [h, Bool.false_eq_true, if_false, add_zero]

theorem eval_model_loop_one_regime (dnorm : ℝ → ℝ → ℝ → ℝ) (M : MSgarch σ V ℝ)
    (all_thetas : NumericMatrix ℝ) (y : List ℝ) (hK : M.K = 1) (hs : M.specs.length = 1)
    (n : Nat) :
    (eval_model_loop Real.exp Real.log dnorm M all_thetas y n).2.K = 1 ∧
    (eval_model_loop Real.exp Real.log dnorm M all_thetas y n).2.specs.length = 1 := by
  induction n with
  | zero => exact ⟨hK, hs⟩
  | succ n ih =>
    rw [eval_model_loop_succ, eval_row_one_regime dnorm _ _ _ ih.1 ih.2]
    obtain ⟨l1, _, _, _, _, _, l7, _⟩ := loaded_shape
      (eval_model_loop Real.exp Real.log dnorm M all_thetas y n).2 (all_thetas.row n)
    exact ⟨by rw [l7, ih.1], by rw [l1, ih.2]⟩

/-- C19: for `K = 1` the transition slice is always the single derived entry `1`, which
is not strictly below `1`; so `calc_prior` returns `(infeasible, -1e10)` for every
`theta`, whatever the regime model's own prior, and every entry of the result of
`eval_model` is `-1e10`, the engine being left as it is after loading the row (the
filter is not run). -/
theorem one_regime_always_infeasible (dnorm : ℝ → ℝ → ℝ → ℝ) (M : MSgarch σ V ℝ)
    (hK : M.K = 1) (hs : M.specs.length = 1) :
    (∀ theta : List ℝ, extract_P_it M theta 0 = [1]) ∧
    (∀ theta : List ℝ, calc_prior dnorm M theta = { r1 := false, r2 := -(10 ^ 10) }) ∧
    (∀ (all_thetas : NumericMatrix ℝ) (y : List ℝ) (j : Nat), j < all_thetas.nrow →
      (eval_model Real.exp Real.log dnorm M all_thetas y).1[j]? = some (-(10 ^ 10) : ℝ) ∧
      (eval_model_loop Real.exp Real.log dnorm M all_thetas y (j + 1)).2
        = eval_model_loaded Real.exp Real.log dnorm M all_thetas y j) := by
  refine ⟨fun theta => extract_P_it_one_regime M theta 0 hK,
    fun theta => calc_prior_one_regime dnorm M theta hK hs, ?_⟩
  intro all_thetas y j hj
  obtain ⟨iK, is⟩ := eval_model_loop_one_regime dnorm M all_thetas y hK hs j
  have hrow := eval_row_one_regime dnorm
    (eval_model_loop Real.exp Real.log dnorm M all_thetas y j).2 (all_thetas.row j) y iK is
  have hget := eval_model_loop_getElem Real.exp Real.log dnorm M all_thetas y j hj
    (all_thetas.nrow - (j + 1))
  rw [show j + 1 + (all_thetas.nrow - (j + 1)) = all_thetas.nrow by omega, hrow] at hget
  constructor
  · exact hget
  · rw [eval_model_loop_succ, hrow]
    rfl

/-- Witness of C19 on the one-regime engine `ex1Loaded` and the vector `[1]`. -/
theorem one_regime_always_infeasible_witness :
    calc_prior (dnorm_log Real.log (Real.log (Real.sqrt (2 * Real.pi))))
        (ex1Loaded ℝ Real.log) [1]
      = { r1 := false, r2 := -(10 ^ 10) } :=
  (one_regime_always_infeasible (dnorm_log Real.log (Real.log (Real.sqrt (2 * Real.pi))))
    (ex1Loaded ℝ Real.log) rfl rfl).2.1 [1]

end OneRegime

/-! ## The path-recording filter: lemmas and claim -/

section PathFilter

open Finset

variable {σ V : Type}

/-- The filter variables of the path-recording loop are those of the likelihood-only
loop. -/
theorem HF2_foldl_fst (M : MSgarch σ V ℝ) (L : NumericMatrix ℝ) (l : List Nat)
    (s : HFState ℝ × NumericMatrix ℝ) :
    (l.foldl (HF2_step Real.exp Real.log M L) s).1
      = l.foldl (HF_step Real.exp Real.log M L) s.1 := by
  induction l generalizing s with
  | nil => rfl
  | cons t l ih =>
    rw [List.foldl_cons, List.foldl_cons, ih]
    rfl

/-- After `m` iterations the recorded matrix holds, in rows `0..m`, the normalised
forward vectors of steps `0..m`. -/
theorem HF2_foldl_Ptmp (M : MSgarch σ V ℝ) (L : NumericMatrix ℝ)
    (h : StochasticChain M.K M.P M.P0) (hL : L.nrow = M.K) (m : Nat) :
    ((List.range' 1 m).foldl (HF2_step Real.exp Real.log M L)
        (HF_predict Real.exp M L 0 M.P0 0,
          (NumericMatrix.zero (L.ncol + 1) M.K).setRowK 0 M.K M.P0)).2.nrow = L.ncol + 1 ∧
    ((List.range' 1 m).foldl (HF2_step Real.exp Real.log M L)
        (HF_predict Real.exp M L 0 M.P0 0,
          (NumericMatrix.zero (L.ncol + 1) M.K).setRowK 0 M.K M.P0)).2.ncol = M.K ∧
    ∀ i j, i ≤ m → j < M.K →
      ((List.range' 1 m).foldl (HF2_step Real.exp Real.log M L)
        (HF_predict Real.exp M L 0 M.P0 0,
          (NumericMatrix.zero (L.ncol + 1) M.K).setRowK 0 M.K M.P0)).2.val i j
        = forwardVec Real.exp M.K M.P M.P0 L i j
          / ∑ r ∈ range M.K, forwardVec Real.exp M.K M.P M.P0 L i r := by
  induction m with
  | zero =>
    refine ⟨rfl, rfl, ?_⟩
    intro i j hi hj
    obtain rfl : i = 0 := by omega
    rw [forwardVec_zero_sum M.K M.P M.P0 L h, div_one]
    simp [NumericMatrix.setRowK, hj, forwardVec]
  | succ m ih =>
    obtain ⟨i1, i2, i3⟩ := ih
    obtain ⟨_, _, t3⟩ := HFInv_foldl M.K L M h hL m
    obtain ⟨_, n2⟩ := normalize_step M.K M.P M.P0 L h m
      ((List.range' 1 m).foldl (HF_step Real.exp Real.log M L)
        (HF_predict Real.exp M L 0 M.P0 0)).delta
    rw [List.range'_concat, List.foldl_append]
    simp only [List.foldl_cons, List.foldl_nil, one_mul]
    refine ⟨i1, i2, ?_⟩
    intro i j hi hj
    simp only [HF2_step, NumericMatrix.setRowK]
    by_cases him : i = 1 + m
    · rw [if_pos ⟨him, hj⟩, HF2_foldl_fst, t3, n2, him, Nat.add_comm 1 m]
      simp [List.getD_eq_getElem?_getD, List.getElem?_range hj]
    · rw [if_neg (fun hc => him hc.1)]
      exact i3 i j (by omega) hj

/-- C20: for every row-stochastic non-negative `P`, probability vector `P0` and `K x n`
log-density matrix with `n ≥ 1`, the matrix returned by `HamiltonFilter_2` has `n + 1`
rows (and `K` columns), row `0` is `P0`, and every row is a probability distribution
(entries non-negative, sum `1`); the `PLast` it leaves is a probability distribution
too. -/
theorem HamiltonFilter_2_rows_prob (M : MSgarch σ V ℝ) (L : NumericMatrix ℝ)
    (h : StochasticChain M.K M.P M.P0) (hL : L.nrow = M.K) (hn : 1 ≤ L.ncol) :
    (HamiltonFilter_2 Real.exp Real.log M L).1.nrow = L.ncol + 1 ∧
    (HamiltonFilter_2 Real.exp Real.log M L).1.ncol = M.K ∧
    (HamiltonFilter_2 Real.exp Real.log M L).1.row 0 = M.P0 ∧
    (∀ t, t ≤ L.ncol →
      (∀ p ∈ (HamiltonFilter_2 Real.exp Real.log M L).1.row t, 0 ≤ p) ∧
      ((HamiltonFilter_2 Real.exp Real.log M L).1.row t).sum = 1) ∧
    (∀ p ∈ (HamiltonFilter_2 Real.exp Real.log M L).2.PLast, 0 ≤ p) ∧
    (HamiltonFilter_2 Real.exp Real.log M L).2.PLast.sum = 1 := by
  obtain ⟨i1, i2, i3⟩ := HF2_foldl_Ptmp M L h hL (L.ncol - 1)
  obtain ⟨_, _, t3⟩ := HFInv_foldl M.K L M h hL (L.ncol - 1)
  obtain ⟨_, n2⟩ := normalize_step M.K M.P M.P0 L h (L.ncol - 1)
    ((List.range' 1 (L.ncol - 1)).foldl (HF_step Real.exp Real.log M L)
      (HF_predict Real.exp M L 0 M.P0 0)).delta
  rw [Nat.sub_add_cancel hn] at n2
  have hpos : ∀ t, 0 < ∑ r ∈ range M.K, forwardVec Real.exp M.K M.P M.P0 L t r :=
    forwardVec_sum_pos M.K M.P M.P0 L h
  have hnn : ∀ t j, j < M.K → 0 ≤ forwardVec Real.exp M.K M.P M.P0 L t j :=
    fun t j hj => forwardVec_nonneg M.K M.P M.P0 L h t j hj
  -- the entries of the returned matrix
  have hval : ∀ t j, t ≤ L.ncol → j < M.K →
      (HamiltonFilter_2 Real.exp Real.log M L).1.val t j
        = forwardVec Real.exp M.K M.P M.P0 L t j
          / ∑ r ∈ range M.K, forwardVec Real.exp M.K M.P M.P0 L t r := by
    intro t j ht hj
    simp only [HamiltonFilter_2, NumericMatrix.setRowK]
    by_cases htn : t = L.ncol
    · rw [if_pos ⟨htn, hj⟩, HF2_foldl_fst, t3, n2, htn]
      simp [List.getD_eq_getElem?_getD, List.getElem?_range hj]
    · rw [if_neg (fun hc => htn hc.1)]
      exact i3 t j (by omega) hj
  have hrow : ∀ t, t ≤ L.ncol →
      (HamiltonFilter_2 Real.exp Real.log M L).1.row t
        = (List.range M.K).map (fun j => forwardVec Real.exp M.K M.P M.P0 L t j
            / ∑ r ∈ range M.K, forwardVec Real.exp M.K M.P M.P0 L t r) := by
    intro t ht
    have hc : (HamiltonFilter_2 Real.exp Real.log M L).1.ncol = M.K := by
      simp only [HamiltonFilter_2, NumericMatrix.setRowK]
      exact i2
    unfold NumericMatrix.row
    rw [hc]
    apply List.map_congr_left
    intro j hj
    exact hval t j ht (List.mem_range.mp hj)
  have hPLast : (HamiltonFilter_2 Real.exp Real.log M L).2.PLast
      = (List.range M.K).map (fun i => ∑ r ∈ range M.K,
          forwardVec Real.exp M.K M.P M.P0 L L.ncol r
            / (∑ j ∈ range M.K, forwardVec Real.exp M.K M.P M.P0 L L.ncol j)
            * M.P.val r i) := by
    simp only [HamiltonFilter_2]
    rw [HF2_foldl_fst, t3, n2, matrixProd_map_range M.K _ _ h.nrow]
  refine ⟨?_, ?_, ?_, ?_, ?_, ?_⟩
  · simp only [HamiltonFilter_2, NumericMatrix.setRowK]
    exact i1
  · simp only [HamiltonFilter_2, NumericMatrix.setRowK]
    exact i2
  · rw [hrow 0 (Nat.zero_le _), forwardVec_zero_sum M.K M.P M.P0 L h]
    simp only [div_one]
    exact (eq_map_range_getD M.P0 M.K h.P0_len).symm
  · intro t ht
    rw [hrow t ht]
    constructor
    · intro p hp
      obtain ⟨j, hj, rfl⟩ := List.mem_map.mp hp
      exact div_nonneg (hnn t j (List.mem_range.mp hj)) (hpos t).le
    · rw [sum_map_range_eq_finset, ← Finset.sum_div, div_self (hpos t).ne.symm]
  · intro p hp
    rw [hPLast] at hp
    obtain ⟨i, hi, rfl⟩ := List.mem_map.mp hp
    apply Finset.sum_nonneg
    intro r hr
    exact mul_nonneg (div_nonneg (hnn _ r (mem_range.mp hr)) (hpos _).le)
      (h.P_nonneg r i (mem_range.mp hr) (List.mem_range.mp hi))
  · rw [hPLast, sum_map_range_eq_finset, sum_pred_eq M.K M.P M.P0 h, ← Finset.sum_div,
      div_self (hpos _).ne.symm]

/-- Witness of C20 on the engine `exLoaded` and the log-density matrix `exL`: the
returned matrix has four rows. -/
theorem HamiltonFilter_2_rows_prob_witness :
    (HamiltonFilter_2 Real.exp Real.log (exLoaded ℝ Real.log) (exL ℝ Real.log)).1.nrow
      = 3 + 1 :=
  (HamiltonFilter_2_rows_prob (exLoaded ℝ Real.log) (exL ℝ Real.log) exLoaded_chain rfl
    (by decide)).1

end PathFilter

/-! ## The last belief as a matrix: lemmas and claim -/

section PstateClaims

variable {σ V : Type}

theorem HamiltonFilter_2_PLast_length (exp log : ℝ → ℝ) (M : MSgarch σ V ℝ)
    (L : NumericMatrix ℝ) (K : Nat) (hP0 : M.P0.length = K) (hL : L.nrow = K) :
    (HamiltonFilter_2 exp log M L).2.PLast.length = K := by
  have key : ∀ (l : List Nat) (s : HFState ℝ × NumericMatrix ℝ), s.1.tmp.length = K →
      (l.foldl (HF2_step exp log M L) s).1.tmp.length = K := by
    intro l
    induction l with
    | nil => intro s hs; exact hs
    | cons t l ih =>
      intro s hs
      rw [List.foldl_cons]
      apply ih
      exact (HF_predict_lengths exp M L K hL _ _ (by simp [hs]) t).2
  have h0 := (HF_predict_lengths exp M L K hL 0 M.P0 hP0 0).2
  simp only [HamiltonFilter_2, matrixProd_length, List.length_map]
  exact key _ _ h0

theorem PLast_after_filter_2_length (exp log : ℝ → ℝ) (M : MSgarch σ V ℝ) (theta y : List ℝ)
    (hP0 : M.P0.length = M.K) :
    (PLast_after_filter_2 exp log M theta y).length = M.K := by
  obtain ⟨c1, c2⟩ := calc_lndMat_shape (prep_ineq_vol (loadparam M theta)) y
  unfold PLast_after_filter_2
  apply HamiltonFilter_2_PLast_length
  · rw [c2]
    exact hP0
  · exact c1

/-- The loop `out(0, i) = PLast(i)`, `i < n`, on the `1 x 2` matrix `out`: with `n ≤ 2`
it sets the first `n` cells; with `n ≥ 3` the write at column `2` is out of range. -/
theorem f_get_Pstate_loop (PLast : List ℝ) (n : Nat) (hn : n ≤ PLast.length) :
    (List.range n).foldlM (f_get_Pstate_step PLast) (ArmaMat.new 1 2)
      = if n ≤ 2 then
          some { nrow := 1, ncol := 2,
                 val := fun r c => if r = 0 ∧ c < n then PLast[c]? else none }
        else none := by
  induction n with
  | zero =>
    simp [ArmaMat.new]
  | succ n ih =>
    rw [List.range_succ, List.foldlM_append, ih (by omega)]
    by_cases h2 : n ≤ 2
    · rw [if_pos h2]
      simp only [Option.bind_eq_bind, Option.some_bind, List.foldlM_cons, List.foldlM_nil,
        f_get_Pstate_step, List.getElem?_eq_getElem (by omega : n < PLast.length),
        ArmaMat.set?]
      by_cases h3 : n < 2
      · rw [if_pos ⟨by decide, h3⟩, if_pos (by omega)]
        simp only [Option.some_bind, Option.pure_def, Option.some.injEq, ArmaMat.mk.injEq,
          true_and]
        funext r c
        by_cases hr : r = 0
        · by_cases hc : c = n
          · subst hc
            simp [hr, List.getElem?_eq_getElem (by omega : c < PLast.length)]
          · have e : (c < n + 1) ↔ (c < n) := by omega
            simp [hr, hc, e]
        · simp [hr]
      · rw [if_neg (fun hc => h3 hc.2), if_neg (by omega)]
        rfl
    · rw [if_neg h2, if_neg (by omega)]
      rfl

/-- With `y[0]` read, `f_get_Pstate(theta, y, true)` is the loop over the `K` entries of
the `PLast` left by `HamiltonFilter_2`. -/
theorem f_get_Pstate_eq (exp log : ℝ → ℝ) (M : MSgarch σ V ℝ) (theta y : List ℝ) (y0 : ℝ)
    (hy : y[0]? = some y0) :
    f_get_Pstate exp log M theta y true
      = (List.range M.K).foldlM (f_get_Pstate_step (PLast_after_filter_2 exp log M theta y))
          (ArmaMat.new 1 2) := by
  simp only [f_get_Pstate, hy, Option.bind_eq_bind, Option.some_bind, if_true]
  rfl

/-- C21: `f_get_Pstate` with `returnPLast = true` copies the `K` entries of `PLast` into
a matrix allocated with exactly `2` columns.  Every write is in bounds and the returned
row is `PLast`, cell for cell, if and only if `K = 2`: for `K ≥ 3` the write at column
index `2` is out of range, and for `K = 1` the writes are in bounds but the second
column is never set. -/
theorem f_get_Pstate_fits_iff_two (M : MSgarch σ V ℝ) (theta y : List ℝ) (hK : 1 ≤ M.K)
    (hP0 : M.P0.length = M.K) (hy : 2 ≤ y.length) :
    ((∃ out, f_get_Pstate Real.exp Real.log M theta y true = some out ∧
        out.row 0 = (PLast_after_filter_2 Real.exp Real.log M theta y).map some)
      ↔ M.K = 2) ∧
    (3 ≤ M.K → f_get_Pstate Real.exp Real.log M theta y true = none) ∧
    (M.K = 1 → ∃ out, f_get_Pstate Real.exp Real.log M theta y true = some out ∧
      out.val 0 0 = (PLast_after_filter_2 Real.exp Real.log M theta y)[0]? ∧
      out.val 0 1 = none) ∧
    (PLast_after_filter_2 Real.exp Real.log M theta y).length = M.K := by
  have h0 : y[0]? = some y[0] := List.getElem?_eq_getElem (by omega)
  have hlen := PLast_after_filter_2_length Real.exp Real.log M theta y hP0
  have hloop := f_get_Pstate_loop (PLast_after_filter_2 Real.exp Real.log M theta y) M.K
    (by omega)
  have hf := f_get_Pstate_eq Real.exp Real.log M theta y y[0] h0
  rw [hloop] at hf
  have hthree : 3 ≤ M.K → f_get_Pstate Real.exp Real.log M theta y true = none := by
    intro h3
    rw [hf, if_neg (by omega)]
  have hone : M.K = 1 → ∃ out, f_get_Pstate Real.exp Real.log M theta y true = some out ∧
      out.val 0 0 = (PLast_after_filter_2 Real.exp Real.log M theta y)[0]? ∧
      out.val 0 1 = none := by
    intro h1
    rw [hf, if_pos (by omega)]
    refine ⟨_, rfl, ?_, ?_⟩
    · simp [h1]
    · simp [h1]
  refine ⟨⟨?_, ?_⟩, hthree, hone, hlen⟩
  · rintro ⟨out, hout, hrow⟩
    by_contra hne
    rcases Nat.lt_or_ge M.K 3 with hlt | hge
    · have h1 : M.K = 1 := by omega
      rw [hf, if_pos (by omega), Option.some.injEq] at hout
      have hl := congrArg List.length hrow
      rw [← hout] at hl
      simp [ArmaMat.row, hlen, h1] at hl
    · rw [hthree hge] at hout
      exact absurd hout (by simp)
  · intro h2
    rw [hf, if_pos (by omega)]
    refine ⟨_, rfl, ?_⟩
    obtain ⟨p, q, hpq⟩ := List.length_eq_two.mp (hlen.trans h2)
    simp [ArmaMat.row, h2, hpq, List.range_succ]

/-- Witness of C21 on the two-regime engine `exEngine`: the returned row is `PLast`. -/
theorem f_get_Pstate_fits_iff_two_witness :
    ∃ out, f_get_Pstate Real.exp Real.log (exEngine ℝ Real.log) (exTheta ℝ) (exY ℝ) true
        = some out ∧
      out.row 0
        = (PLast_after_filter_2 Real.exp Real.log (exEngine ℝ Real.log) (exTheta ℝ)
            (exY ℝ)).map some :=
  (f_get_Pstate_fits_iff_two (exEngine ℝ Real.log) (exTheta ℝ) (exY ℝ) (by decide) rfl
    (by decide)).1.mpr rfl

end PstateClaims

end MSGARCH
